import Mathlib

/-!
# BinaryTree (modules/zarubin_mikhail_binary_tree/include/binary_tree.h)

A shallow embedding of the pointer-based binary tree container.

* A `Vertex*` is an `Option Nat`: `none` is `nullptr`, `some a` is the address `a`.
* The free store is a map from addresses to vertices; `new` takes the next fresh
  address, `delete` empties the cell.  Reading through a null pointer or through
  a pointer to an emptied cell is a `Fault`.
* `std::size_t` is a natural number below `2 ^ 64`; `++` and `--` wrap.
* The two `while` loops take a step budget; running out of it is the fault
  `outOfFuel`.
-/

namespace BinaryTree

/-- The ways an operation of the model can fail to return. -/
inductive Fault where
  | nullDeref
  | dangling
  | outOfFuel
  deriving DecidableEq, Repr

/-- A `Vertex*`: `none` is `nullptr`. -/
abbrev Ptr := Option Nat

/-- The `struct Vertex`: a value and two child links. -/
structure Vertex (α : Type) where
  value : α
  leftEdge : Ptr
  rightEdge : Ptr
  deriving DecidableEq, Repr

/-- The `enum class Direction`. -/
inductive Direction where
  | LEFT
  | RIGHT
  deriving DecidableEq, Repr

/-- The free store: the vertex living at each address, if any. -/
abbrev Heap (α : Type) := Nat → Option (Vertex α)

/-- Reading `p->...`: the vertex a pointer refers to. -/
def deref {α : Type} (heap : Heap α) (p : Ptr) : Except Fault (Vertex α) :=
  match p with
  | none => .error .nullDeref
  | some a =>
    match heap a with
    | none => .error .dangling
    | some v => .ok v

/-- Writing the cell at address `a`. -/
def store {α : Type} (heap : Heap α) (a : Nat) (v : Vertex α) : Heap α :=
  fun b => if b = a then some v else heap b

/-- The effect of `delete p` on the free store. -/
def free {α : Type} (heap : Heap α) (a : Nat) : Heap α :=
  fun b => if b = a then none else heap b

/-- `Vertex::replaceValue`. -/
def Vertex.replaceValue {α : Type} (self : Vertex α) (newValue : α) : Vertex α :=
  { self with value := newValue }

/-- `Vertex::replaceVertex`: take over value and both links of `vertex`. -/
def Vertex.replaceVertex {α : Type} (_self : Vertex α) (vertex : Vertex α) : Vertex α :=
  { value := vertex.value, leftEdge := vertex.leftEdge, rightEdge := vertex.rightEdge }

/-- The `struct SearchState`: the traversal cursor. -/
structure SearchState where
  previousVertex : Ptr
  currentVertex : Ptr
  lastStep : Direction
  deriving DecidableEq, Repr

/-- `SearchState::reset`. -/
def SearchState.reset (_self : SearchState) (previousVertex currentVertex : Ptr) :
    SearchState :=
  { previousVertex := previousVertex, currentVertex := currentVertex,
    lastStep := Direction.LEFT }

/-- `SearchState::goToLeft`. -/
def SearchState.goToLeft {α : Type} (heap : Heap α) (self : SearchState) :
    Except Fault SearchState :=
  match deref heap self.currentVertex with
  | .error e => .error e
  | .ok v =>
    .ok { lastStep := Direction.LEFT, previousVertex := self.currentVertex,
          currentVertex := v.leftEdge }

/-- `SearchState::goToRight`. -/
def SearchState.goToRight {α : Type} (heap : Heap α) (self : SearchState) :
    Except Fault SearchState :=
  match deref heap self.currentVertex with
  | .error e => .error e
  | .ok v =>
    .ok { lastStep := Direction.RIGHT, previousVertex := self.currentVertex,
          currentVertex := v.rightEdge }

/-- `SearchState::replaceLink`: the link of `previousVertex` on side `lastStep`
is assigned `currentVertex`; the parameter `vertex` is not read. -/
def SearchState.replaceLink {α : Type} (heap : Heap α) (self : SearchState)
    (_vertex : Ptr) : Except Fault (Heap α) :=
  match self.previousVertex with
  | none => .error .nullDeref
  | some p =>
    match heap p with
    | none => .error .dangling
    | some v =>
      match self.lastStep with
      | Direction.LEFT => .ok (store heap p { v with leftEdge := self.currentVertex })
      | Direction.RIGHT => .ok (store heap p { v with rightEdge := self.currentVertex })

/-- The number of values of `std::size_t`. -/
def sizeModulus : Nat := 2 ^ 64

/-- `treeSize++` on `std::size_t`. -/
def sizeIncr (n : Nat) : Nat := (n + 1) % sizeModulus

/-- `treeSize--` on `std::size_t`. -/
def sizeDecr (n : Nat) : Nat := (n + (sizeModulus - 1)) % sizeModulus

end BinaryTree

/-- The `class BinaryTree`: its three fields, together with the free store the
pointers refer to and the next address `new` will hand out. -/
structure BinaryTree (α : Type) where
  heap : BinaryTree.Heap α
  next : Nat
  root : BinaryTree.Ptr
  searchState : BinaryTree.SearchState
  treeSize : Nat

namespace BinaryTree

/-- `new Vertex(value)`: a childless vertex at a fresh address. -/
def newVertex {α : Type} (t : BinaryTree α) (value : α) : BinaryTree α × Ptr :=
  ({ t with heap := store t.heap t.next { value := value, leftEdge := none, rightEdge := none },
            next := t.next + 1 },
   some t.next)

/-- `BinaryTree()`: the empty tree. -/
def construct {α : Type} : BinaryTree α :=
  { heap := fun _ => none, next := 0, root := none,
    searchState := { previousVertex := none, currentVertex := none,
                     lastStep := Direction.LEFT },
    treeSize := 0 }

/-- The `while` loop of `findByValue`, run for at most `fuel` iterations. -/
def findLoop {α : Type} [LinearOrder α] (heap : Heap α) (value : α) :
    Nat → SearchState → Except Fault (Bool × SearchState)
  | fuel, st =>
    match st.currentVertex with
    | none => .ok (false, st)
    | some c =>
      match fuel with
      | 0 => .error .outOfFuel
      | fuel + 1 =>
        match deref heap (some c) with
        | .error e => .error e
        | .ok v =>
          if value < v.value then
            match st.goToLeft heap with
            | .error e => .error e
            | .ok st1 => findLoop heap value fuel st1
          else if value > v.value then
            match st.goToRight heap with
            | .error e => .error e
            | .ok st1 => findLoop heap value fuel st1
          else
            .ok (true, st)

/-- `BinaryTree::findByValue`: the answer and the tree with its cursor parked. -/
def findByValue {α : Type} [LinearOrder α] (fuel : Nat) (t : BinaryTree α) (value : α) :
    Except Fault (Bool × BinaryTree α) :=
  match findLoop t.heap value fuel (t.searchState.reset none t.root) with
  | .error e => .error e
  | .ok (b, st) => .ok (b, { t with searchState := st })

/-- `BinaryTree::insertByState`. -/
def insertByState {α : Type} (t : BinaryTree α) (value : α) : Except Fault (BinaryTree α) :=
  let t1 := { t with treeSize := sizeIncr t.treeSize }
  let (t2, vertex) := newVertex t1 value
  match t2.searchState.replaceLink t2.heap vertex with
  | .error e => .error e
  | .ok heap => .ok { t2 with heap := heap }

/-- `BinaryTree::insertByValue`. -/
def insertByValue {α : Type} [LinearOrder α] (fuel : Nat) (t : BinaryTree α) (value : α) :
    Except Fault (BinaryTree α) :=
  if t.root = none then
    let (t1, vertex) := newVertex t value
    .ok { t1 with root := vertex, treeSize := sizeIncr t1.treeSize }
  else
    match findByValue fuel t value with
    | .error e => .error e
    | .ok (success, t1) =>
      if !success then insertByState t1 value else .ok t1

/-- `BinaryTree(const std::vector<Type>& data)`, the loop over `data`. -/
def insertAll {α : Type} [LinearOrder α] (fuel : Nat) :
    BinaryTree α → List α → Except Fault (BinaryTree α)
  | t, [] => .ok t
  | t, value :: rest =>
    match insertByValue fuel t value with
    | .error e => .error e
    | .ok t1 => insertAll fuel t1 rest

/-- `BinaryTree(const std::vector<Type>& data)`: the empty tree, then every
value of `data` inserted in order. -/
def constructFrom {α : Type} [LinearOrder α] (fuel : Nat) (data : List α) :
    Except Fault (BinaryTree α) :=
  insertAll fuel construct data

/-- The effect of `delete p` for a pointer: nothing happens for `nullptr`. -/
def deletePtr {α : Type} (heap : Heap α) (p : Ptr) : Heap α :=
  match p with
  | none => heap
  | some a => free heap a

/-- The `while` loop of the two-children branch of `deleteByState`: follow left
links while there is one, for at most `fuel` iterations. -/
def leftmostLoop {α : Type} (heap : Heap α) : Nat → SearchState → Except Fault SearchState
  | fuel, deleteState =>
    match deref heap deleteState.currentVertex with
    | .error e => .error e
    | .ok v =>
      if v.leftEdge ≠ none then
        match fuel with
        | 0 => .error .outOfFuel
        | fuel + 1 =>
          match deleteState.goToLeft heap with
          | .error e => .error e
          | .ok deleteState1 => leftmostLoop heap fuel deleteState1
      else
        .ok deleteState

/-- `BinaryTree::deleteByState`. -/
def deleteByState {α : Type} (fuel : Nat) (t : BinaryTree α) (_value : α) :
    Except Fault (BinaryTree α) := do
  let rootFlag : Bool := decide (t.searchState.currentVertex = t.root)
  let t := { t with treeSize := sizeDecr t.treeSize }
  let cur ← deref t.heap t.searchState.currentVertex
  let t ←
    if cur.leftEdge = none ∧ cur.rightEdge = none then
      pure { t with heap := deletePtr t.heap t.searchState.currentVertex,
                    searchState := { t.searchState with currentVertex := none } }
    else if cur.leftEdge = none ∧ cur.rightEdge ≠ none then do
      let deletedVertex := cur.rightEdge
      let child ← deref t.heap cur.rightEdge
      match t.searchState.currentVertex with
      | none => throw Fault.nullDeref
      | some c =>
        let heap1 := store t.heap c (cur.replaceVertex child)
        pure { t with heap := deletePtr heap1 deletedVertex }
    else if cur.leftEdge ≠ none ∧ cur.rightEdge = none then do
      let deletedVertex := cur.leftEdge
      let child ← deref t.heap cur.leftEdge
      match t.searchState.currentVertex with
      | none => throw Fault.nullDeref
      | some c =>
        let heap1 := store t.heap c (cur.replaceVertex child)
        pure { t with heap := deletePtr heap1 deletedVertex }
    else do
      let deleteState0 : SearchState :=
        { previousVertex := t.searchState.currentVertex, currentVertex := cur.rightEdge,
          lastStep := Direction.RIGHT }
      let deleteState ← leftmostLoop t.heap fuel deleteState0
      let deletedVertex := deleteState.currentVertex
      let successor ← deref t.heap deleteState.currentVertex
      let heap1 ← deleteState.replaceLink t.heap successor.rightEdge
      let successor1 ← deref heap1 deleteState.currentVertex
      let cur1 ← deref heap1 t.searchState.currentVertex
      match t.searchState.currentVertex with
      | none => throw Fault.nullDeref
      | some c =>
        let heap2 := store heap1 c (cur1.replaceValue successor1.value)
        pure { t with heap := deletePtr heap2 deletedVertex }
  if rootFlag then
    pure { t with root := t.searchState.currentVertex }
  else do
    let heap ← t.searchState.replaceLink t.heap t.searchState.currentVertex
    pure { t with heap := heap }

/-- `BinaryTree::deleteByValue`. -/
def deleteByValue {α : Type} [LinearOrder α] (fuel : Nat) (t : BinaryTree α) (value : α) :
    Except Fault (BinaryTree α) :=
  match findByValue fuel t value with
  | .error e => .error e
  | .ok (success, t1) =>
    if success then deleteByState fuel t1 value else .ok t1

/-- `BinaryTree::getSize`. -/
def getSize {α : Type} (t : BinaryTree α) : Nat :=
  t.treeSize

/-! ## Observers of the linked structure -/

/-- The in-order traversal (left subtree, value, right subtree) of the vertices
linked below `p`, descending at most `fuel` links. -/
def inorder {α : Type} (heap : Heap α) : Nat → Ptr → Except Fault (List α)
  | _, none => .ok []
  | 0, some _ => .error .outOfFuel
  | fuel + 1, some a =>
    match heap a with
    | none => .error .dangling
    | some v =>
      match inorder heap fuel v.leftEdge with
      | .error e => .error e
      | .ok ls =>
        match inorder heap fuel v.rightEdge with
        | .error e => .error e
        | .ok rs => .ok (ls ++ v.value :: rs)

/-- The number of vertices linked below `p`, descending at most `fuel` links. -/
def countNodes {α : Type} (heap : Heap α) : Nat → Ptr → Except Fault Nat
  | _, none => .ok 0
  | 0, some _ => .error .outOfFuel
  | fuel + 1, some a =>
    match heap a with
    | none => .error .dangling
    | some v =>
      match countNodes heap fuel v.leftEdge with
      | .error e => .error e
      | .ok nl =>
        match countNodes heap fuel v.rightEdge with
        | .error e => .error e
        | .ok nr => .ok (nl + 1 + nr)

/-! ## States the public interface can build -/

/-- The tree states obtained from `BinaryTree()` or `BinaryTree(data)` by calls of
`findByValue`, `insertByValue` and `deleteByValue` that return. -/
inductive Reachable {α : Type} [LinearOrder α] : BinaryTree α → Prop
  | construct : Reachable construct
  | constructFrom (fuel : Nat) (data : List α) (t : BinaryTree α) :
      constructFrom fuel data = .ok t → Reachable t
  | find (fuel : Nat) (t : BinaryTree α) (k : α) (b : Bool) (t1 : BinaryTree α) :
      Reachable t → findByValue fuel t k = .ok (b, t1) → Reachable t1
  | insert (fuel : Nat) (t : BinaryTree α) (k : α) (t1 : BinaryTree α) :
      Reachable t → insertByValue fuel t k = .ok t1 → Reachable t1
  | delete (fuel : Nat) (t : BinaryTree α) (k : α) (t1 : BinaryTree α) :
      Reachable t → deleteByValue fuel t k = .ok t1 → Reachable t1

/-- The root is null or a vertex without children. -/
def AtMostOne {α : Type} (t : BinaryTree α) : Prop :=
  t.root = none ∨
    ∃ a v, t.root = some a ∧ t.heap a = some { value := v, leftEdge := none, rightEdge := none }

/-! ## Trees as values, and their layout in the free store -/

/-- A finite binary tree of keys. -/
inductive Tree (α : Type) where
  | nil : Tree α
  | node : Tree α → α → Tree α → Tree α
  deriving DecidableEq, Repr

/-- The keys held by the nodes of a tree, in order. -/
def Tree.toList {α : Type} : Tree α → List α
  | .nil => []
  | .node l v r => l.toList ++ v :: r.toList

/-- The number of nodes on the longest path from the root. -/
def Tree.height {α : Type} : Tree α → Nat
  | .nil => 0
  | .node l _ r => max l.height r.height + 1

/-- The ordering of a binary search tree: at every node the left subtree holds
strictly smaller keys and the right subtree strictly greater keys. -/
def Tree.BST {α : Type} [LinearOrder α] : Tree α → Prop
  | .nil => True
  | .node l v r => (∀ x ∈ l.toList, x < v) ∧ (∀ x ∈ r.toList, v < x) ∧ l.BST ∧ r.BST

/-- The vertices linked below pointer `p` in `heap` form the tree `tr`. -/
def Represents {α : Type} (heap : Heap α) : Ptr → Tree α → Prop
  | p, .nil => p = none
  | p, .node l v r =>
    ∃ a pl pr, p = some a ∧
      heap a = some { value := v, leftEdge := pl, rightEdge := pr } ∧
      Represents heap pl l ∧ Represents heap pr r

/-! ## Concrete states -/

/-- The state an operation returned, the empty tree if it faulted. -/
def stateOf {α : Type} (r : Except Fault (BinaryTree α)) : BinaryTree α :=
  match r with
  | .ok t => t
  | .error _ => construct

/-- The state built by `BinaryTree({5, 3, 8})`. -/
def afterInserts : BinaryTree Nat :=
  stateOf (constructFrom 4 [5, 3, 8])

/-- A search tree with three nodes: `5` with children `3` and `8`. -/
def threeTree : Tree Nat :=
  .node (.node .nil 3 .nil) 5 (.node .nil 8 .nil)

/-- The free store laying out `threeTree` at addresses `0`, `1` and `2`. -/
def threeHeap : Heap Nat := fun a =>
  match a with
  | 0 => some { value := 5, leftEdge := some 1, rightEdge := some 2 }
  | 1 => some { value := 3, leftEdge := none, rightEdge := none }
  | 2 => some { value := 8, leftEdge := none, rightEdge := none }
  | _ => none

/-- A tree object whose root is the vertex at address `0` of `threeHeap`. -/
def threeNodes : BinaryTree Nat :=
  { heap := threeHeap, next := 3, root := some 0,
    searchState := { previousVertex := none, currentVertex := none,
                     lastStep := Direction.LEFT },
    treeSize := 3 }

/-- The search tree `10` with children `5` (itself with children `3` and `7`) and `15`. -/
def fiveTree : Tree Nat :=
  .node (.node (.node .nil 3 .nil) 5 (.node .nil 7 .nil)) 10 (.node .nil 15 .nil)

/-- The free store laying out `fiveTree`, the vertices at the addresses that
inserting `10, 5, 15, 3, 7` in this order would allocate. -/
def fiveHeap : Heap Nat := fun a =>
  match a with
  | 0 => some { value := 10, leftEdge := some 1, rightEdge := some 2 }
  | 1 => some { value := 5, leftEdge := some 3, rightEdge := some 4 }
  | 2 => some { value := 15, leftEdge := none, rightEdge := none }
  | 3 => some { value := 3, leftEdge := none, rightEdge := none }
  | 4 => some { value := 7, leftEdge := none, rightEdge := none }
  | _ => none

/-- A tree object whose root is the vertex at address `0` of `fiveHeap`. -/
def fiveNodes : BinaryTree Nat :=
  { heap := fiveHeap, next := 5, root := some 0,
    searchState := { previousVertex := none, currentVertex := none,
                     lastStep := Direction.LEFT },
    treeSize := 5 }

/-- The last statement of `deleteByState`: the root slot takes the cursor's current
vertex when `rootFlag` is set, otherwise `replaceLink` rewrites the parent's link. -/
def deleteFinish {α : Type} (rootFlag : Bool) (t : BinaryTree α) :
    Except Fault (BinaryTree α) :=
  if rootFlag then
    pure { t with root := t.searchState.currentVertex }
  else do
    let heap ← t.searchState.replaceLink t.heap t.searchState.currentVertex
    pure { t with heap := heap }

/-- The link of a vertex on a side. -/
def Vertex.edge {α : Type} (v : Vertex α) : Direction → Ptr
  | Direction.LEFT => v.leftEdge
  | Direction.RIGHT => v.rightEdge

/-- A vertex with its link on one side replaced. -/
def Vertex.setEdge {α : Type} (v : Vertex α) (d : Direction) (p : Ptr) : Vertex α :=
  match d with
  | Direction.LEFT => { v with leftEdge := p }
  | Direction.RIGHT => { v with rightEdge := p }

/-- The address `b` is that of a vertex linked, through left and right links, below
the pointer `p`. -/
inductive Linked {α : Type} (heap : Heap α) : Ptr → Nat → Prop
  | here (a : Nat) : Linked heap (some a) a
  | left (a : Nat) (w : Vertex α) (b : Nat) :
      heap a = some w → Linked heap w.leftEdge b → Linked heap (some a) b
  | right (a : Nat) (w : Vertex α) (b : Nat) :
      heap a = some w → Linked heap w.rightEdge b → Linked heap (some a) b

/-- The search tree with a leaf holding `k` placed where the descent for `k` ends
(the tree itself when `k` is present). -/
def Tree.insert {α : Type} [LinearOrder α] (k : α) : Tree α → Tree α
  | .nil => .node .nil k .nil
  | .node l v r =>
    if k < v then .node (l.insert k) v r
    else if v < k then .node l v (r.insert k)
    else .node l v r

/-- The subtree rooted at the node where the descent for `k` stops (`nil` when `k`
is absent). -/
def Tree.subtreeAt {α : Type} [LinearOrder α] (k : α) : Tree α → Tree α
  | .nil => .nil
  | .node l v r =>
    if k < v then l.subtreeAt k
    else if v < k then r.subtreeAt k
    else .node l v r

/-- The tree with the subtree at the node holding `k` replaced by `sub`. -/
def Tree.replaceAt {α : Type} [LinearOrder α] (k : α) (sub : Tree α) : Tree α → Tree α
  | .nil => .nil
  | .node l v r =>
    if k < v then .node (Tree.replaceAt k sub l) v r
    else if v < k then .node l v (Tree.replaceAt k sub r)
    else sub

/-- Parent relinking, the spec's reference for one-child deletion: the node holding
`k`, when it has exactly one child, is replaced by the subtree of that child. -/
def Tree.relinkChild {α : Type} [LinearOrder α] (k : α) : Tree α → Tree α
  | .nil => .nil
  | .node l v r =>
    if k < v then .node (l.relinkChild k) v r
    else if v < k then .node l v (r.relinkChild k)
    else
      match l, r with
      | .nil, .node rl rv rr => .node rl rv rr
      | .node ll lv lr, .nil => .node ll lv lr
      | _, _ => .node l v r

/-- The root of the tree has exactly one child. -/
def Tree.OneChild {α : Type} : Tree α → Prop
  | .node .nil _ (.node _ _ _) => True
  | .node (.node _ _ _) _ .nil => True
  | _ => False

/-- A search tree in which the node holding `8` has exactly one child: `5` with
children `3` and `8`, and `9` the right child of `8`. -/
def fourTree : Tree Nat :=
  .node (.node .nil 3 .nil) 5 (.node .nil 8 (.node .nil 9 .nil))

/-- The free store laying out `fourTree` at addresses `0` to `3`. -/
def fourHeap : Heap Nat := fun a =>
  match a with
  | 0 => some { value := 5, leftEdge := some 1, rightEdge := some 2 }
  | 1 => some { value := 3, leftEdge := none, rightEdge := none }
  | 2 => some { value := 8, leftEdge := none, rightEdge := some 3 }
  | 3 => some { value := 9, leftEdge := none, rightEdge := none }
  | _ => none

/-- A tree object whose root is the vertex at address `0` of `fourHeap`. -/
def fourNodes : BinaryTree Nat :=
  { heap := fourHeap, next := 4, root := some 0,
    searchState := { previousVertex := none, currentVertex := none,
                     lastStep := Direction.LEFT },
    treeSize := 4 }

theorem findLoop_null {α : Type} [LinearOrder α] (heap : Heap α) (k : α) (fuel : Nat)
    (st : SearchState) (h : st.currentVertex = none) :
    findLoop heap k fuel st = .ok (false, st) := by
  cases fuel <;> simp [findLoop, h]

theorem findLoop_single {α : Type} [LinearOrder α] (heap : Heap α) (k v : α) (fuel a : Nat)
    (st : SearchState) (hc : st.currentVertex = some a)
    (ha : heap a = some { value := v, leftEdge := none, rightEdge := none }) :
    findLoop heap k (fuel + 1) st =
      if k < v then
        .ok (false, { previousVertex := some a, currentVertex := none,
                      lastStep := Direction.LEFT })
      else if v < k then
        .ok (false, { previousVertex := some a, currentVertex := none,
                      lastStep := Direction.RIGHT })
      else .ok (true, st) := by
  rw [findLoop]
  simp only [hc, deref, ha, SearchState.goToLeft, SearchState.goToRight, gt_iff_lt]
  split_ifs <;> simp [findLoop_null]

/-- The search changes nothing but the cursor. -/
theorem findByValue_frame {α : Type} [LinearOrder α] (fuel : Nat) (t t1 : BinaryTree α)
    (k : α) (b : Bool) (h : findByValue fuel t k = .ok (b, t1)) :
    t1 = { t with searchState := t1.searchState } := by
  unfold findByValue at h
  split at h
  · exact absurd h (by simp)
  · cases h; rfl

theorem findByValue_empty {α : Type} [LinearOrder α] (fuel : Nat) (t : BinaryTree α) (k : α)
    (h : t.root = none) :
    findByValue fuel t k =
      .ok (false, { t with searchState := { previousVertex := none, currentVertex := none,
                                            lastStep := Direction.LEFT } }) := by
  unfold findByValue
  rw [findLoop_null _ _ _ _ (by simp [SearchState.reset, h])]
  simp [SearchState.reset, h]

theorem findByValue_single {α : Type} [LinearOrder α] (fuel : Nat) (t : BinaryTree α)
    (k v : α) (a : Nat) (hr : t.root = some a)
    (ha : t.heap a = some { value := v, leftEdge := none, rightEdge := none }) :
    findByValue (fuel + 1) t k =
      if k < v then
        .ok (false, { t with searchState := { previousVertex := some a, currentVertex := none,
                                              lastStep := Direction.LEFT } })
      else if v < k then
        .ok (false, { t with searchState := { previousVertex := some a, currentVertex := none,
                                              lastStep := Direction.RIGHT } })
      else
        .ok (true, { t with searchState := { previousVertex := none, currentVertex := some a,
                                             lastStep := Direction.LEFT } }) := by
  unfold findByValue
  rw [findLoop_single t.heap k v fuel a _ (by simp [SearchState.reset, hr]) ha]
  split_ifs <;> simp [SearchState.reset, hr]

theorem findByValue_zero {α : Type} [LinearOrder α] (t : BinaryTree α) (k : α) (a : Nat)
    (hr : t.root = some a) : findByValue 0 t k = .error Fault.outOfFuel := by
  simp [findByValue, findLoop, SearchState.reset, hr]

theorem AtMostOne_find {α : Type} [LinearOrder α] (fuel : Nat) (t t1 : BinaryTree α) (k : α)
    (b : Bool) (hinv : AtMostOne t) (h : findByValue fuel t k = .ok (b, t1)) :
    AtMostOne t1 := by
  have hf := findByValue_frame fuel t t1 k b h
  rw [hf]
  exact hinv

theorem AtMostOne_insert {α : Type} [LinearOrder α] (fuel : Nat) (t t1 : BinaryTree α) (k : α)
    (hinv : AtMostOne t) (h : insertByValue fuel t k = .ok t1) : AtMostOne t1 := by
  rcases hinv with hr | ⟨a, v, hr, ha⟩
  · simp only [insertByValue, hr, newVertex, if_true] at h
    cases h
    exact Or.inr ⟨t.next, k, rfl, by simp [store]⟩
  · have hne : ¬ t.root = none := by simp [hr]
    cases fuel with
    | zero => simp [insertByValue, hr, findByValue_zero t k a hr] at h
    | succ fuel =>
      simp only [insertByValue, hne, if_false, findByValue_single fuel t k v a hr ha] at h
      split_ifs at h
      · by_cases han : a = t.next
        · simp [insertByState, newVertex, SearchState.replaceLink, store, han] at h
          subst h
          exact Or.inr ⟨a, k, by simp [hr], by simp [store, han]⟩
        · simp [insertByState, newVertex, SearchState.replaceLink, store, han, ha] at h
          subst h
          exact Or.inr ⟨a, v, by simp [hr], by simp [store, han]⟩
      · by_cases han : a = t.next
        · simp [insertByState, newVertex, SearchState.replaceLink, store, han] at h
          subst h
          exact Or.inr ⟨a, k, by simp [hr], by simp [store, han]⟩
        · simp [insertByState, newVertex, SearchState.replaceLink, store, han, ha] at h
          subst h
          exact Or.inr ⟨a, v, by simp [hr], by simp [store, han]⟩
      · simp at h
        subst h
        exact Or.inr ⟨a, v, by simp [hr], by simp [ha]⟩

theorem AtMostOne_delete {α : Type} [LinearOrder α] (fuel : Nat) (t t1 : BinaryTree α) (k : α)
    (hinv : AtMostOne t) (h : deleteByValue fuel t k = .ok t1) : AtMostOne t1 := by
  rcases hinv with hr | ⟨a, v, hr, ha⟩
  · simp only [deleteByValue, findByValue_empty fuel t k hr] at h
    simp at h
    cases h
    exact Or.inl hr
  · cases fuel with
    | zero => simp [deleteByValue, findByValue_zero t k a hr] at h
    | succ fuel =>
      simp only [deleteByValue, findByValue_single fuel t k v a hr ha] at h
      split_ifs at h
      · simp at h; cases h; exact Or.inr ⟨a, v, hr, ha⟩
      · simp at h; cases h; exact Or.inr ⟨a, v, hr, ha⟩
      · simp [deleteByState, hr, deref, ha, bind, Except.bind, pure, Except.pure] at h
        cases h
        exact Or.inl rfl

theorem AtMostOne_insertAll {α : Type} [LinearOrder α] (fuel : Nat) (data : List α) :
    ∀ (t t1 : BinaryTree α), AtMostOne t → insertAll fuel t data = .ok t1 → AtMostOne t1 := by
  induction data with
  | nil =>
    intro t t1 hinv h
    simp [insertAll] at h
    subst h
    exact hinv
  | cons value rest ih =>
    intro t t1 hinv h
    rw [insertAll] at h
    split at h
    · exact absurd h (by simp)
    · next t2 heq => exact ih t2 t1 (AtMostOne_insert fuel t t2 value hinv heq) h

theorem AtMostOne_construct {α : Type} : AtMostOne (construct : BinaryTree α) :=
  Or.inl rfl

/-- Every state the public interface can build has at most one linked vertex. -/
theorem AtMostOne_of_reachable {α : Type} [LinearOrder α] (t : BinaryTree α)
    (h : Reachable t) : AtMostOne t := by
  induction h with
  | construct => exact AtMostOne_construct
  | constructFrom fuel data t hc =>
    exact AtMostOne_insertAll fuel data construct t AtMostOne_construct hc
  | find fuel t k b t1 _ hf ih => exact AtMostOne_find fuel t t1 k b ih hf
  | insert fuel t k t1 _ hi ih => exact AtMostOne_insert fuel t t1 k ih hi
  | delete fuel t k t1 _ hd ih => exact AtMostOne_delete fuel t t1 k ih hd

theorem deleteByValue_empty {α : Type} [LinearOrder α] (fuel : Nat) (t : BinaryTree α) (k : α)
    (hr : t.root = none) :
    deleteByValue fuel t k =
      .ok { t with searchState := { previousVertex := none, currentVertex := none,
                                    lastStep := Direction.LEFT } } := by
  simp only [deleteByValue, findByValue_empty fuel t k hr]
  rfl

theorem deleteByValue_single {α : Type} [LinearOrder α] (fuel : Nat) (t : BinaryTree α)
    (k v : α) (a : Nat) (hr : t.root = some a)
    (ha : t.heap a = some { value := v, leftEdge := none, rightEdge := none }) :
    deleteByValue (fuel + 1) t k =
      if k < v then
        .ok { t with searchState := { previousVertex := some a, currentVertex := none,
                                      lastStep := Direction.LEFT } }
      else if v < k then
        .ok { t with searchState := { previousVertex := some a, currentVertex := none,
                                      lastStep := Direction.RIGHT } }
      else
        .ok { heap := free t.heap a, next := t.next, root := none,
              searchState := { previousVertex := none, currentVertex := none,
                               lastStep := Direction.LEFT },
              treeSize := sizeDecr t.treeSize } := by
  simp only [deleteByValue, findByValue_single fuel t k v a hr ha]
  split_ifs
  · rfl
  · rfl
  · simp [deleteByState, hr, deref, ha, bind, Except.bind, pure, Except.pure, deletePtr]

theorem deleteByValue_then_find {α : Type} [LinearOrder α] (t : BinaryTree α)
    (hinv : AtMostOne t) (k : α) (fuel : Nat) (hfuel : 1 ≤ fuel) :
    ∃ t1 t2, deleteByValue fuel t k = .ok t1 ∧ findByValue fuel t1 k = .ok (false, t2) := by
  rcases hinv with hr | ⟨a, v, hr, ha⟩
  · exact ⟨_, _, deleteByValue_empty fuel t k hr, findByValue_empty fuel _ k hr⟩
  · obtain ⟨f, rfl⟩ : ∃ f, fuel = f + 1 := ⟨fuel - 1, by omega⟩
    rw [deleteByValue_single f t k v a hr ha]
    by_cases h1 : k < v
    · exact ⟨_, _, if_pos h1, (findByValue_single f _ k v a hr ha).trans (if_pos h1)⟩
    · by_cases h2 : v < k
      · exact ⟨_, _, (if_neg h1).trans (if_pos h2),
          (findByValue_single f _ k v a hr ha).trans ((if_neg h1).trans (if_pos h2))⟩
      · exact ⟨_, _, (if_neg h1).trans (if_neg h2), findByValue_empty (f + 1) _ k rfl⟩

/-- C2: in every state reachable from the empty tree by calls of the public
interface, for every key `k`, `deleteByValue k` returns and a following
`findByValue k` returns `false` (any step budget of at least one). -/
theorem remove_then_contains_false {α : Type} [LinearOrder α] (t : BinaryTree α)
    (hreach : Reachable t) (k : α) (fuel : Nat) (hfuel : 1 ≤ fuel) :
    ∃ t1 t2, deleteByValue fuel t k = .ok t1 ∧ findByValue fuel t1 k = .ok (false, t2) :=
  deleteByValue_then_find t (AtMostOne_of_reachable t hreach) k fuel hfuel

theorem inorder_of_atMostOne {α : Type} [LinearOrder α] (t : BinaryTree α)
    (hinv : AtMostOne t) (fuel : Nat) (hfuel : 1 ≤ fuel) :
    ∃ l, inorder t.heap fuel t.root = .ok l ∧ l.Sorted (· < ·) := by
  rcases hinv with hr | ⟨a, v, hr, ha⟩
  · refine ⟨[], ?_, List.sorted_nil⟩
    rw [hr]
    cases fuel <;> rfl
  · obtain ⟨f, rfl⟩ : ∃ f, fuel = f + 1 := ⟨fuel - 1, by omega⟩
    refine ⟨[v], ?_, List.sorted_singleton v⟩
    rw [hr, inorder]
    simp only [ha]
    cases f <;> rfl

/-- C3: in every state reachable from `BinaryTree()` or `BinaryTree(data)` by calls
of the public interface, the in-order traversal from `root` returns a strictly
increasing list of keys. -/
theorem inorder_sorted_of_reachable {α : Type} [LinearOrder α] (t : BinaryTree α)
    (hreach : Reachable t) (fuel : Nat) (hfuel : 1 ≤ fuel) :
    ∃ l, inorder t.heap fuel t.root = .ok l ∧ l.Sorted (· < ·) :=
  inorder_of_atMostOne t (AtMostOne_of_reachable t hreach) fuel hfuel

/-- C8: whenever `findByValue k` returns `false`, `deleteByValue k` returns a
state with the same root, the same free store (every vertex with its value and
links), the same allocation mark and the same size; only the cursor may differ. -/
theorem remove_absent_noop {α : Type} [LinearOrder α] (fuel : Nat) (t t1 : BinaryTree α)
    (k : α) (h : findByValue fuel t k = .ok (false, t1)) :
    ∃ t2, deleteByValue fuel t k = .ok t2 ∧ t2.root = t.root ∧ t2.heap = t.heap ∧
      t2.next = t.next ∧ getSize t2 = getSize t := by
  have hf := findByValue_frame fuel t t1 k false h
  refine ⟨t1, ?_, ?_, ?_, ?_, ?_⟩
  · simp [deleteByValue, h]
  · rw [hf]
  · rw [hf]
  · rw [hf]
  · rw [hf]; rfl

/-- On the layout of a search tree the loop returns, and it answers whether the
key is among the keys of the tree. -/
theorem findLoop_correct {α : Type} [LinearOrder α] (heap : Heap α) (k : α) :
    ∀ (tr : Tree α) (fuel : Nat) (st : SearchState),
      Represents heap st.currentVertex tr → tr.BST → tr.height ≤ fuel →
      ∃ st1, findLoop heap k fuel st = .ok (decide (k ∈ tr.toList), st1) := by
  intro tr
  induction tr with
  | nil =>
    intro fuel st hrep _ _
    exact ⟨st, by simpa [Tree.toList] using findLoop_null heap k fuel st hrep⟩
  | node l v r ihl ihr =>
    intro fuel st hrep hbst hfuel
    obtain ⟨a, pl, pr, hc, ha, hl, hr⟩ := hrep
    obtain ⟨hlt, hgt, hbl, hbr⟩ := hbst
    simp only [Tree.height] at hfuel
    obtain ⟨f, rfl⟩ : ∃ f, fuel = f + 1 := ⟨fuel - 1, by omega⟩
    have hfl : l.height ≤ f := by have := le_max_left l.height r.height; omega
    have hfr : r.height ≤ f := by have := le_max_right l.height r.height; omega
    rw [findLoop]
    simp only [hc, deref, ha, SearchState.goToLeft, SearchState.goToRight, gt_iff_lt]
    by_cases h1 : k < v
    · obtain ⟨st1, hst1⟩ := ihl f ⟨some a, pl, Direction.LEFT⟩ hl hbl hfl
      have hmem : (k ∈ (Tree.node l v r).toList) ↔ k ∈ l.toList := by
        simp only [Tree.toList, List.mem_append, List.mem_cons]
        constructor
        · rintro (h | h | h)
          · exact h
          · exact absurd h (ne_of_lt h1)
          · exact absurd (hgt k h) (not_lt.mpr (le_of_lt h1))
        · exact Or.inl
      refine ⟨st1, ?_⟩
      simp only [h1, if_true, hst1, hmem]
    · by_cases h2 : v < k
      · obtain ⟨st1, hst1⟩ := ihr f ⟨some a, pr, Direction.RIGHT⟩ hr hbr hfr
        have hmem : (k ∈ (Tree.node l v r).toList) ↔ k ∈ r.toList := by
          simp only [Tree.toList, List.mem_append, List.mem_cons]
          constructor
          · rintro (h | h | h)
            · exact absurd (hlt k h) (not_lt.mpr (le_of_lt h2))
            · exact absurd h (ne_of_gt h2)
            · exact h
          · exact fun h => Or.inr (Or.inr h)
        refine ⟨st1, ?_⟩
        simp only [h1, h2, if_true, if_false, hst1, hmem]
      · have hkv : k = v := le_antisymm (not_lt.mp h2) (not_lt.mp h1)
        refine ⟨st, ?_⟩
        simp [h1, h2, Tree.toList, hkv]

/-- C9: on every finite tree laid out in the free store that satisfies the
search-tree ordering, with a step budget of at least its height, `findByValue k`
returns, and it returns `true` exactly when some node of the tree holds `k`. -/
theorem findByValue_iff_mem {α : Type} [LinearOrder α] (t : BinaryTree α) (tr : Tree α)
    (k : α) (fuel : Nat) (hrep : Represents t.heap t.root tr) (hbst : tr.BST)
    (hfuel : tr.height ≤ fuel) :
    ∃ b t1, findByValue fuel t k = .ok (b, t1) ∧ (b = true ↔ k ∈ tr.toList) := by
  obtain ⟨st1, hst1⟩ := findLoop_correct t.heap k tr fuel (t.searchState.reset none t.root)
    hrep hbst hfuel
  refine ⟨decide (k ∈ tr.toList), { t with searchState := st1 }, ?_, by simp⟩
  simp [findByValue, hst1]

theorem threeNodes_repr : Represents threeNodes.heap threeNodes.root threeTree :=
  ⟨0, some 1, some 2, rfl, rfl, ⟨1, none, none, rfl, rfl, rfl, rfl⟩,
    ⟨2, none, none, rfl, rfl, rfl, rfl⟩⟩

theorem threeTree_BST : threeTree.BST := by
  simp [threeTree, Tree.BST, Tree.toList]

/-- C1, evaluated: after `insert(5)` and `insert(3)` on the empty tree, both of
which return, `findByValue 3` returns `false`. -/
theorem insert_then_contains_fails :
    ∃ t1 t2 t3 : BinaryTree Nat, insertByValue 4 construct 5 = .ok t1 ∧
      insertByValue 4 t1 3 = .ok t2 ∧ findByValue 4 t2 3 = .ok (false, t3) :=
  ⟨_, _, _, rfl, rfl, rfl⟩

/-- Witness of C2 on the state built from `{5, 3, 8}`. -/
theorem remove_then_contains_false_witness :
    Reachable afterInserts ∧ 1 ≤ 4 ∧
      ∃ t1 t2, deleteByValue 4 afterInserts 5 = .ok t1 ∧
        findByValue 4 t1 5 = .ok (false, t2) :=
  ⟨Reachable.constructFrom 4 [5, 3, 8] afterInserts rfl, by decide,
    remove_then_contains_false afterInserts
      (Reachable.constructFrom 4 [5, 3, 8] afterInserts rfl) 5 4 (by decide)⟩

/-- Witness of C3 on the state built from `{5, 3, 8}`. -/
theorem inorder_sorted_of_reachable_witness :
    Reachable afterInserts ∧ 1 ≤ 4 ∧
      ∃ l, inorder afterInserts.heap 4 afterInserts.root = .ok l ∧ l.Sorted (· < ·) :=
  ⟨Reachable.constructFrom 4 [5, 3, 8] afterInserts rfl, by decide,
    inorder_sorted_of_reachable afterInserts
      (Reachable.constructFrom 4 [5, 3, 8] afterInserts rfl) 4 (by decide)⟩

/-- C4, evaluated: after `BinaryTree({5, 3})` the size is `2` while one vertex is
linked from the root. -/
theorem size_exceeds_node_count :
    ∃ t : BinaryTree Nat, constructFrom 4 [5, 3] = .ok t ∧ getSize t = 2 ∧
      countNodes t.heap 4 t.root = .ok 1 :=
  ⟨_, rfl, rfl, rfl⟩

/-- C5, evaluated: after `BinaryTree({5, 3, 8, 1, 4, 7, 9})`, `findByValue 4`
returns `false`. -/
theorem contains_after_construct_fails :
    ∃ t t1 : BinaryTree Nat, constructFrom 8 [5, 3, 8, 1, 4, 7, 9] = .ok t ∧
      findByValue 8 t 4 = .ok (false, t1) :=
  ⟨_, _, rfl, rfl⟩

/-- C6, evaluated: `BinaryTree({1, 2, 2})` has size `3`, with two distinct values
in the data. -/
theorem size_counts_repeated_insert :
    ∃ t : BinaryTree Nat, constructFrom 4 [1, 2, 2] = .ok t ∧ getSize t = 3 ∧
      ([1, 2, 2] : List Nat).dedup.length = 2 :=
  ⟨_, rfl, rfl, by decide⟩

/-- C7, evaluated: from the state after `insert(5)`, one `insert(3)` gives size `2`
and a second `insert(3)` gives size `3`. -/
theorem insert_twice_grows_size :
    ∃ t0 t1 t2 : BinaryTree Nat, insertByValue 4 construct 5 = .ok t0 ∧
      insertByValue 4 t0 3 = .ok t1 ∧ insertByValue 4 t1 3 = .ok t2 ∧
      getSize t1 = 2 ∧ getSize t2 = 3 :=
  ⟨_, _, _, rfl, rfl, rfl, rfl, rfl⟩

/-- Witness of C8: key `4` is absent from the three-node tree. -/
theorem remove_absent_noop_witness :
    findByValue 4 threeNodes 4 =
        .ok (false, { threeNodes with
          searchState := { previousVertex := some 1, currentVertex := none,
                           lastStep := Direction.RIGHT } }) ∧
      ∃ t2, deleteByValue 4 threeNodes 4 = .ok t2 ∧ t2.root = threeNodes.root ∧
        t2.heap = threeNodes.heap ∧ t2.next = threeNodes.next ∧
        getSize t2 = getSize threeNodes :=
  ⟨rfl, remove_absent_noop 4 threeNodes _ 4 rfl⟩

/-- Witness of C9: searching `8` in the three-node tree. -/
theorem findByValue_iff_mem_witness :
    Represents threeNodes.heap threeNodes.root threeTree ∧ threeTree.BST ∧
      threeTree.height ≤ 2 ∧
      ∃ b t1, findByValue 2 threeNodes 8 = .ok (b, t1) ∧ (b = true ↔ 8 ∈ threeTree.toList) :=
  ⟨⟨0, some 1, some 2, rfl, rfl, ⟨1, none, none, rfl, rfl, rfl, rfl⟩,
      ⟨2, none, none, rfl, rfl, rfl, rfl⟩⟩,
    by simp [threeTree, Tree.BST, Tree.toList], by decide,
    findByValue_iff_mem threeNodes threeTree 8 2
      ⟨0, some 1, some 2, rfl, rfl, ⟨1, none, none, rfl, rfl, rfl, rfl⟩,
        ⟨2, none, none, rfl, rfl, rfl, rfl⟩⟩
      (by simp [threeTree, Tree.BST, Tree.toList]) (by decide)⟩

/-- C10, evaluated: on the three-node search tree `5` with children `3` and `8`,
`deleteByValue 5` returns a state whose root vertex holds `8` and still links, on
the right, the address of the released successor vertex, so that the in-order
traversal reads a released vertex. -/
theorem delete_two_children_dangles :
    Represents threeNodes.heap threeNodes.root threeTree ∧ threeTree.BST ∧
      ∃ t1, deleteByValue 4 threeNodes 5 = .ok t1 ∧ t1.root = some 0 ∧
        t1.heap 0 = some { value := 8, leftEdge := some 1, rightEdge := some 2 } ∧
        t1.heap 2 = none ∧ inorder t1.heap 4 t1.root = .error Fault.dangling :=
  ⟨threeNodes_repr, threeTree_BST, _, rfl, rfl, rfl, rfl, rfl⟩

/-! ## The wrapping size counter -/

theorem sizeDecr_of_pos (n : Nat) (h1 : 1 ≤ n) (h2 : n < sizeModulus) :
    sizeDecr n = n - 1 := by
  unfold sizeDecr sizeModulus at *
  omega

theorem sizeDecr_sizeIncr_zero : sizeDecr (sizeIncr 0) = 0 := by
  unfold sizeDecr sizeIncr sizeModulus
  norm_num

theorem sizeIncr_zero : sizeIncr 0 = 1 := by
  unfold sizeIncr sizeModulus
  norm_num

/-! ## Insertion and deletion at the root slot -/

theorem insertByValue_empty {α : Type} [LinearOrder α] (fuel : Nat) (t : BinaryTree α) (k : α)
    (hr : t.root = none) :
    insertByValue fuel t k =
      .ok { heap := store t.heap t.next { value := k, leftEdge := none, rightEdge := none },
            next := t.next + 1, root := some t.next, searchState := t.searchState,
            treeSize := sizeIncr t.treeSize } := by
  simp [insertByValue, hr, newVertex]

/-- C11, evaluated: after `insert(5)` and `insert(3)` on the empty tree the root
vertex (address `0`) still has no child; the vertex holding `3` was allocated at
address `1` and is linked from nowhere. -/
theorem insert_leaves_no_link :
    ∃ t1 t2 : BinaryTree Nat, insertByValue 4 construct 5 = .ok t1 ∧
      insertByValue 4 t1 3 = .ok t2 ∧ t2.root = some 0 ∧
      t2.heap 0 = some { value := 5, leftEdge := none, rightEdge := none } ∧
      t2.heap 1 = some { value := 3, leftEdge := none, rightEdge := none } ∧
      t2.searchState = { previousVertex := some 0, currentVertex := none,
                         lastStep := Direction.LEFT } :=
  ⟨_, _, rfl, rfl, rfl, rfl, rfl, rfl⟩

/-- C12, evaluated: on the laid-out tree `10 (5 (3, 7), 15)`, `deleteByValue 10`
leaves the root vertex with value `15`, its left link unchanged and its right link
still the address `2` of the successor vertex, which has been released; and on the
tree built by `BinaryTree({10, 5, 15, 3, 7})` it leaves the root null. -/
theorem delete_two_children_keeps_link :
    Represents fiveNodes.heap fiveNodes.root fiveTree ∧ fiveTree.BST ∧
      (∃ t1, deleteByValue 4 fiveNodes 10 = .ok t1 ∧ t1.root = some 0 ∧
        t1.heap 0 = some { value := 15, leftEdge := some 1, rightEdge := some 2 } ∧
        t1.heap 2 = none ∧ getSize t1 = 4) ∧
      (∃ t t1 : BinaryTree Nat, constructFrom 4 [10, 5, 15, 3, 7] = .ok t ∧
        deleteByValue 4 t 10 = .ok t1 ∧ t1.root = none ∧ getSize t1 = 4) :=
  ⟨⟨0, some 1, some 2, rfl, rfl,
      ⟨1, some 3, some 4, rfl, rfl, ⟨3, none, none, rfl, rfl, rfl, rfl⟩,
        ⟨4, none, none, rfl, rfl, rfl, rfl⟩⟩,
      ⟨2, none, none, rfl, rfl, rfl, rfl⟩⟩,
    by simp [fiveTree, Tree.BST, Tree.toList],
    ⟨_, rfl, rfl, rfl, rfl, rfl⟩, ⟨_, _, rfl, rfl, rfl, rfl⟩⟩

/-- C17: for every key `k` and every step budget of at least one, on the empty
tree `insert(k)` then `remove(k)` return and leave the root null and the size `0`;
a following `insert(k)` returns and leaves size `1` and a root vertex that holds
`k` and has no child. -/
theorem insert_remove_insert {α : Type} [LinearOrder α] (k : α) (fuel : Nat)
    (hfuel : 1 ≤ fuel) :
    ∃ t1 t2 t3 : BinaryTree α, insertByValue fuel construct k = .ok t1 ∧
      deleteByValue fuel t1 k = .ok t2 ∧ t2.root = none ∧ getSize t2 = 0 ∧
      insertByValue fuel t2 k = .ok t3 ∧ getSize t3 = 1 ∧
      Represents t3.heap t3.root (.node .nil k .nil) := by
  obtain ⟨f, rfl⟩ : ∃ f, fuel = f + 1 := ⟨fuel - 1, by omega⟩
  obtain ⟨t1, h1, hr1, hh1, hs1⟩ : ∃ t1 : BinaryTree α,
      insertByValue (f + 1) construct k = .ok t1 ∧ t1.root = some 0 ∧
        t1.heap 0 = some { value := k, leftEdge := none, rightEdge := none } ∧
        t1.treeSize = sizeIncr 0 :=
    ⟨_, insertByValue_empty (f + 1) construct k rfl, rfl, by simp [construct, store], rfl⟩
  obtain ⟨t2, h2, hr2, hs2⟩ : ∃ t2 : BinaryTree α,
      deleteByValue (f + 1) t1 k = .ok t2 ∧ t2.root = none ∧
        t2.treeSize = sizeDecr t1.treeSize :=
    ⟨_, (deleteByValue_single f t1 k k 0 hr1 hh1).trans
      ((if_neg (lt_irrefl k)).trans (if_neg (lt_irrefl k))), rfl, rfl⟩
  obtain ⟨t3, h3, hs3, hrep⟩ : ∃ t3 : BinaryTree α,
      insertByValue (f + 1) t2 k = .ok t3 ∧ t3.treeSize = sizeIncr t2.treeSize ∧
        Represents t3.heap t3.root (.node .nil k .nil) :=
    ⟨_, insertByValue_empty (f + 1) t2 k hr2, rfl,
      ⟨t2.next, none, none, rfl, by simp [store], rfl, rfl⟩⟩
  refine ⟨t1, t2, t3, h1, h2, hr2, ?_, h3, ?_, hrep⟩
  · rw [getSize, hs2, hs1, sizeDecr_sizeIncr_zero]
  · rw [getSize, hs3, hs2, hs1, sizeDecr_sizeIncr_zero, sizeIncr_zero]

/-- Witness of C17 at key `5`. -/
theorem insert_remove_insert_witness :
    1 ≤ 1 ∧ ∃ t1 t2 t3 : BinaryTree Nat, insertByValue 1 construct 5 = .ok t1 ∧
      deleteByValue 1 t1 5 = .ok t2 ∧ t2.root = none ∧ getSize t2 = 0 ∧
      insertByValue 1 t2 5 = .ok t3 ∧ getSize t3 = 1 ∧
      Represents t3.heap t3.root (.node .nil 5 .nil) :=
  ⟨le_refl 1, insert_remove_insert 5 1 (le_refl 1)⟩

/-- C18: in every state reachable from `BinaryTree()` or `BinaryTree(data)` by
calls of the public interface, the root is null or it is a vertex with neither a
left nor a right child. -/
theorem reachable_at_most_one_node {α : Type} [LinearOrder α] (t : BinaryTree α)
    (hreach : Reachable t) :
    t.root = none ∨
      ∃ a v, t.root = some a ∧
        t.heap a = some { value := v, leftEdge := none, rightEdge := none } :=
  AtMostOne_of_reachable t hreach

/-- Witness of C18 on the state built from `{5, 3, 8}`. -/
theorem reachable_at_most_one_node_witness :
    Reachable afterInserts ∧
      (afterInserts.root = none ∨
        ∃ a v, afterInserts.root = some a ∧
          afterInserts.heap a = some { value := v, leftEdge := none, rightEdge := none }) :=
  ⟨Reachable.constructFrom 4 [5, 3, 8] afterInserts rfl,
    reachable_at_most_one_node afterInserts
      (Reachable.constructFrom 4 [5, 3, 8] afterInserts rfl)⟩

/-! ## The cursor after a search, on any free store -/

/-- What the search loop leaves in the cursor when it returns: a null current
vertex after `false`, a live one after `true`, and a live previous vertex as soon as
one step was taken. -/
theorem findLoop_result {α : Type} [LinearOrder α] (heap : Heap α) (k : α) :
    ∀ (fuel : Nat) (st st1 : SearchState) (b : Bool),
      findLoop heap k fuel st = .ok (b, st1) →
      (b = false → st1.currentVertex = none) ∧
      (b = true → ∃ c w, st1.currentVertex = some c ∧ heap c = some w) ∧
      (st1 = st ∨ ∃ p w, st1.previousVertex = some p ∧ heap p = some w) := by
  intro fuel
  induction fuel with
  | zero =>
    intro st st1 b h
    cases hc : st.currentVertex with
    | none =>
      rw [findLoop_null heap k 0 st hc] at h
      cases h
      exact ⟨fun _ => hc, fun hb => absurd hb (by simp), Or.inl rfl⟩
    | some c => simp [findLoop, hc] at h
  | succ f ih =>
    intro st st1 b h
    cases hc : st.currentVertex with
    | none =>
      rw [findLoop_null heap k (f + 1) st hc] at h
      cases h
      exact ⟨fun _ => hc, fun hb => absurd hb (by simp), Or.inl rfl⟩
    | some c =>
      rw [findLoop] at h
      simp only [hc, deref] at h
      cases hw : heap c with
      | none => simp [hw] at h
      | some w =>
        simp only [hw, SearchState.goToLeft, SearchState.goToRight, deref, hc] at h
        split_ifs at h with h1 h2
        · obtain ⟨ha, hb, _⟩ := ih _ st1 b h
          exact ⟨ha, hb, Or.inr (by
            rcases ih _ st1 b h with ⟨_, _, h3 | h3⟩
            · exact ⟨c, w, by rw [h3], hw⟩
            · exact h3)⟩
        · obtain ⟨ha, hb, _⟩ := ih _ st1 b h
          exact ⟨ha, hb, Or.inr (by
            rcases ih _ st1 b h with ⟨_, _, h3 | h3⟩
            · exact ⟨c, w, by rw [h3], hw⟩
            · exact h3)⟩
        · cases h
          exact ⟨fun hb => absurd hb (by simp), fun _ => ⟨c, w, hc, hw⟩, Or.inl rfl⟩

/-- After a failed search on a non-empty tree the cursor has a live previous vertex. -/
theorem findByValue_false_previous {α : Type} [LinearOrder α] (fuel : Nat)
    (t t0 : BinaryTree α) (k : α) (a : Nat) (hr : t.root = some a)
    (h : findByValue fuel t k = .ok (false, t0)) :
    t0.heap = t.heap ∧ t0.next = t.next ∧ t0.root = t.root ∧ t0.treeSize = t.treeSize ∧
      t0.searchState.currentVertex = none ∧
      ∃ p w, t0.searchState.previousVertex = some p ∧ t.heap p = some w := by
  have hf := findByValue_frame fuel t t0 k false h
  unfold findByValue at h
  split at h
  · exact absurd h (by simp)
  · next b st hloop =>
    cases h
    obtain ⟨hcur, _, hprev⟩ := findLoop_result t.heap k fuel _ st false hloop
    refine ⟨rfl, rfl, rfl, rfl, hcur rfl, ?_⟩
    rcases hprev with h3 | h3
    · have := hcur rfl
      rw [h3] at this
      simp [SearchState.reset, hr] at this
    · exact h3

/-! ## The size counter under insertion -/

theorem insertByState_ok {α : Type} (t : BinaryTree α) (k : α) (p : Nat) (w : Vertex α)
    (hp : t.searchState.previousVertex = some p) (hw : t.heap p = some w) :
    ∃ t1, insertByState t k = .ok t1 ∧ t1.root = t.root ∧ t1.next = t.next + 1 ∧
      t1.treeSize = sizeIncr t.treeSize := by
  by_cases hpn : p = t.next
  · cases hl : t.searchState.lastStep <;>
      simp [insertByState, newVertex, SearchState.replaceLink, hp, store, hpn, hl]
  · cases hl : t.searchState.lastStep <;>
      simp [insertByState, newVertex, SearchState.replaceLink, hp, store, hpn, hw, hl]

theorem deleteByState_leaf {α : Type} (fuel : Nat) (t : BinaryTree α) (v : α) (c : Nat)
    (cur : Vertex α) (hc : t.searchState.currentVertex = some c) (hcur : t.heap c = some cur)
    (hl : cur.leftEdge = none) (hr : cur.rightEdge = none) :
    deleteByState fuel t v =
      deleteFinish (decide (some c = t.root))
        { heap := free t.heap c, next := t.next, root := t.root,
          searchState := { previousVertex := t.searchState.previousVertex,
                           currentVertex := none, lastStep := t.searchState.lastStep },
          treeSize := sizeDecr t.treeSize } := by
  simp only [deleteByState, hc, deref, hcur, hl, hr, bind, Except.bind, pure, Except.pure,
    deletePtr, deleteFinish, and_self, if_true]

theorem deleteByState_right {α : Type} (fuel : Nat) (t : BinaryTree α) (v : α) (c r : Nat)
    (cur : Vertex α) (hc : t.searchState.currentVertex = some c) (hcur : t.heap c = some cur)
    (hl : cur.leftEdge = none) (hr : cur.rightEdge = some r) :
    deleteByState fuel t v =
      match t.heap r with
      | none => .error Fault.dangling
      | some child =>
        deleteFinish (decide (some c = t.root))
          { heap := free (store t.heap c (cur.replaceVertex child)) r, next := t.next,
            root := t.root, searchState := t.searchState,
            treeSize := sizeDecr t.treeSize } := by
  cases hchild : t.heap r with
  | none =>
    simp [deleteByState, hc, deref, hcur, hl, hr, hchild, bind, Except.bind]
  | some child =>
    simp only [deleteByState, hc, deref, hcur, hl, hr, hchild, bind, Except.bind, pure,
      Except.pure, deletePtr, deleteFinish]
    cases hflag : decide (some c = t.root) <;> rfl

theorem deleteByState_left {α : Type} (fuel : Nat) (t : BinaryTree α) (v : α) (c l : Nat)
    (cur : Vertex α) (hc : t.searchState.currentVertex = some c) (hcur : t.heap c = some cur)
    (hl : cur.leftEdge = some l) (hr : cur.rightEdge = none) :
    deleteByState fuel t v =
      match t.heap l with
      | none => .error Fault.dangling
      | some child =>
        deleteFinish (decide (some c = t.root))
          { heap := free (store t.heap c (cur.replaceVertex child)) l, next := t.next,
            root := t.root, searchState := t.searchState,
            treeSize := sizeDecr t.treeSize } := by
  cases hchild : t.heap l with
  | none =>
    simp [deleteByState, hc, deref, hcur, hl, hr, hchild, bind, Except.bind]
  | some child =>
    simp only [deleteByState, hc, deref, hcur, hl, hr, hchild, bind, Except.bind, pure,
      Except.pure, deletePtr, deleteFinish]
    cases hflag : decide (some c = t.root) <;> rfl

theorem deleteByState_two {α : Type} (fuel : Nat) (t : BinaryTree α) (v : α) (c l r : Nat)
    (cur : Vertex α) (hc : t.searchState.currentVertex = some c) (hcur : t.heap c = some cur)
    (hl : cur.leftEdge = some l) (hr : cur.rightEdge = some r) :
    deleteByState fuel t v = (do
      let deleteState ← leftmostLoop t.heap fuel
        { previousVertex := some c, currentVertex := some r, lastStep := Direction.RIGHT }
      let successor ← deref t.heap deleteState.currentVertex
      let heap1 ← deleteState.replaceLink t.heap successor.rightEdge
      let successor1 ← deref heap1 deleteState.currentVertex
      let cur1 ← deref heap1 (some c)
      deleteFinish (decide (some c = t.root))
        { heap := deletePtr (store heap1 c (cur1.replaceValue successor1.value))
            deleteState.currentVertex,
          next := t.next, root := t.root, searchState := t.searchState,
          treeSize := sizeDecr t.treeSize }) := by
  simp only [deleteByState, hc, deref, hcur, hl, hr, bind, Except.bind, pure, Except.pure,
    deleteFinish]
  simp

/-! ## No null pointer is followed -/

theorem bind_ne_nullDeref {β γ : Type} (x : Except Fault β) (f : β → Except Fault γ)
    (hx : x ≠ .error Fault.nullDeref)
    (hf : ∀ a, x = .ok a → f a ≠ .error Fault.nullDeref) :
    (x >>= f) ≠ .error Fault.nullDeref := by
  cases x with
  | error e =>
    intro h
    exact hx (by simpa [bind, Except.bind] using h)
  | ok a => exact hf a rfl

theorem deref_some_ne_nullDeref {α : Type} (heap : Heap α) (a : Nat) :
    deref heap (some a) ≠ .error Fault.nullDeref := by
  cases h : heap a <;> simp [deref, h]

theorem replaceLink_ne_nullDeref {α : Type} (heap : Heap α) (st : SearchState) (x : Ptr)
    (p : Nat) (hp : st.previousVertex = some p) :
    st.replaceLink heap x ≠ .error Fault.nullDeref := by
  cases hw : heap p with
  | none => simp [SearchState.replaceLink, hp, hw]
  | some w => cases hl : st.lastStep <;> simp [SearchState.replaceLink, hp, hw, hl]

theorem findLoop_ne_nullDeref {α : Type} [LinearOrder α] (heap : Heap α) (k : α) :
    ∀ (fuel : Nat) (st : SearchState), findLoop heap k fuel st ≠ .error Fault.nullDeref := by
  intro fuel
  induction fuel with
  | zero =>
    intro st
    cases hc : st.currentVertex with
    | none => simp [findLoop_null heap k 0 st hc]
    | some c => simp [findLoop, hc]
  | succ f ih =>
    intro st
    cases hc : st.currentVertex with
    | none => simp [findLoop_null heap k (f + 1) st hc]
    | some c =>
      rw [findLoop]
      simp only [hc, deref]
      cases hw : heap c with
      | none => simp
      | some w =>
        simp only [SearchState.goToLeft, SearchState.goToRight, deref, hc, hw]
        split_ifs
        · exact ih _
        · exact ih _
        · simp

theorem findByValue_ne_nullDeref {α : Type} [LinearOrder α] (fuel : Nat) (t : BinaryTree α)
    (k : α) : findByValue fuel t k ≠ .error Fault.nullDeref := by
  unfold findByValue
  have h := findLoop_ne_nullDeref t.heap k fuel (t.searchState.reset none t.root)
  cases hres : findLoop t.heap k fuel (t.searchState.reset none t.root) with
  | error e =>
    rw [hres] at h
    simpa using h
  | ok res => simp

/-- The successor walk keeps a non-null current and previous vertex. -/
theorem leftmostLoop_cursor {α : Type} (heap : Heap α) :
    ∀ (fuel : Nat) (ds : SearchState) (s0 q0 : Nat),
      ds.currentVertex = some s0 → ds.previousVertex = some q0 →
      leftmostLoop heap fuel ds ≠ .error Fault.nullDeref ∧
      ∀ ds1, leftmostLoop heap fuel ds = .ok ds1 →
        ∃ s q, ds1.currentVertex = some s ∧ ds1.previousVertex = some q := by
  intro fuel
  induction fuel with
  | zero =>
    intro ds s0 q0 hs hq
    rw [leftmostLoop]
    cases hw : heap s0 with
    | none => simp [hs, deref, hw]
    | some w =>
      simp only [hs, deref, hw]
      by_cases hl : w.leftEdge = none
      · rw [if_neg (by simp [hl])]
        exact ⟨by simp, fun ds1 h => by cases h; exact ⟨s0, q0, hs, hq⟩⟩
      · rw [if_pos (by simp [hl])]
        simp
  | succ f ih =>
    intro ds s0 q0 hs hq
    rw [leftmostLoop]
    cases hw : heap s0 with
    | none => simp [hs, deref, hw]
    | some w =>
      simp only [hs, deref, hw]
      cases hl : w.leftEdge with
      | none =>
        rw [if_neg (by simp [hl])]
        exact ⟨by simp, fun ds1 h => by cases h; exact ⟨s0, q0, hs, hq⟩⟩
      | some l =>
        rw [if_pos (by simp [hl])]
        simp only [SearchState.goToLeft, deref, hs, hw, hl]
        exact ih _ l s0 rfl rfl

theorem deleteFinish_ne_nullDeref {α : Type} (flag : Bool) (t : BinaryTree α)
    (h : flag = true ∨ ∃ p, t.searchState.previousVertex = some p) :
    deleteFinish flag t ≠ .error Fault.nullDeref := by
  unfold deleteFinish
  cases flag with
  | true => simp [pure, Except.pure]
  | false =>
    rcases h with h | ⟨p, hp⟩
    · exact absurd h (by simp)
    · simp only [Bool.false_eq_true, if_false]
      exact bind_ne_nullDeref _ _ (replaceLink_ne_nullDeref _ _ _ p hp)
        (fun a _ => by simp [pure, Except.pure])

/-- With the cursor on a vertex and, unless that vertex is the root, a non-null
previous vertex, `deleteByState` follows no null pointer. -/
theorem deleteByState_ne_nullDeref {α : Type} (fuel : Nat) (t : BinaryTree α) (v : α)
    (c : Nat) (hc : t.searchState.currentVertex = some c)
    (hp : some c = t.root ∨ ∃ p, t.searchState.previousVertex = some p) :
    deleteByState fuel t v ≠ .error Fault.nullDeref := by
  have hflag : decide (some c = t.root) = true ∨
      ∃ p, t.searchState.previousVertex = some p := by
    rcases hp with h | h
    · exact Or.inl (by simp [h])
    · exact Or.inr h
  cases hcur : t.heap c with
  | none => simp [deleteByState, hc, deref, hcur, bind, Except.bind]
  | some cur =>
    cases hl : cur.leftEdge with
    | none =>
      cases hr : cur.rightEdge with
      | none =>
        rw [deleteByState_leaf fuel t v c cur hc hcur hl hr]
        exact deleteFinish_ne_nullDeref _ _ hflag
      | some r =>
        rw [deleteByState_right fuel t v c r cur hc hcur hl hr]
        cases t.heap r with
        | none => simp
        | some child => exact deleteFinish_ne_nullDeref _ _ hflag
    | some l =>
      cases hr : cur.rightEdge with
      | none =>
        rw [deleteByState_left fuel t v c l cur hc hcur hl hr]
        cases t.heap l with
        | none => simp
        | some child => exact deleteFinish_ne_nullDeref _ _ hflag
      | some r =>
        rw [deleteByState_two fuel t v c l r cur hc hcur hl hr]
        obtain ⟨hloop, hds⟩ := leftmostLoop_cursor t.heap fuel
          { previousVertex := some c, currentVertex := some r, lastStep := Direction.RIGHT }
          r c rfl rfl
        refine bind_ne_nullDeref _ _ hloop (fun ds hdseq => ?_)
        obtain ⟨s, q, hs, hq⟩ := hds ds hdseq
        rw [hs]
        refine bind_ne_nullDeref _ _ (deref_some_ne_nullDeref _ _) (fun w _ => ?_)
        refine bind_ne_nullDeref _ _ (replaceLink_ne_nullDeref _ _ _ q hq) (fun heap1 _ => ?_)
        refine bind_ne_nullDeref _ _ (deref_some_ne_nullDeref _ _) (fun w1 _ => ?_)
        refine bind_ne_nullDeref _ _ (deref_some_ne_nullDeref _ _) (fun cur1 _ => ?_)
        exact deleteFinish_ne_nullDeref _ _ hflag

/-- C20: on every tree state, with every key and every step budget, none of
`findByValue`, `insertByValue` and `deleteByValue` ends in the fault of following a
null pointer: `replaceLink` is only reached with a non-null previous vertex and
`deleteByState` only with a non-null current vertex. -/
theorem no_null_dereference {α : Type} [LinearOrder α] (fuel : Nat) (t : BinaryTree α)
    (k : α) :
    findByValue fuel t k ≠ .error Fault.nullDeref ∧
      insertByValue fuel t k ≠ .error Fault.nullDeref ∧
      deleteByValue fuel t k ≠ .error Fault.nullDeref := by
  refine ⟨findByValue_ne_nullDeref fuel t k, ?_, ?_⟩
  · cases hr : t.root with
    | none => simp [insertByValue_empty fuel t k hr]
    | some a =>
      have hne : ¬ t.root = none := by simp [hr]
      simp only [insertByValue, hne, if_false]
      cases hfind : findByValue fuel t k with
      | error e =>
        have := findByValue_ne_nullDeref fuel t k
        rw [hfind] at this
        simpa using this
      | ok res =>
        obtain ⟨b, t0⟩ := res
        cases b with
        | true => simp
        | false =>
          obtain ⟨hh, _, _, _, _, p, w, hp, hw⟩ :=
            findByValue_false_previous fuel t t0 k a hr hfind
          obtain ⟨t1, h1, _⟩ := insertByState_ok t0 k p w hp (by rw [hh]; exact hw)
          simp [h1]
  · unfold deleteByValue
    cases hfind : findByValue fuel t k with
    | error e =>
      have := findByValue_ne_nullDeref fuel t k
      rw [hfind] at this
      simpa using this
    | ok res =>
      obtain ⟨b, t0⟩ := res
      cases b with
      | false => simp
      | true =>
        have hf := findByValue_frame fuel t t0 k true hfind
        unfold findByValue at hfind
        split at hfind
        · exact absurd hfind (by simp)
        · next b1 st hloop =>
          cases hfind
          obtain ⟨_, hcur, hprev⟩ := findLoop_result t.heap k fuel _ st true hloop
          obtain ⟨c, w, hc, hw⟩ := hcur rfl
          simp only [if_true]
          refine deleteByState_ne_nullDeref fuel _ k c hc ?_
          rcases hprev with h3 | ⟨p, wp, hp, _⟩
          · left
            rw [← hc, h3]
            rfl
          · exact Or.inr ⟨p, hp⟩

/-- Without a parked cursor the guard is missing: `deleteByState` on the cursor of
the empty tree follows a null pointer. -/
theorem deleteByState_unparked :
    deleteByState 1 (construct : BinaryTree Nat) 0 = .error Fault.nullDeref :=
  rfl

/-! ## Layouts of search trees: frames and subtrees -/

theorem Tree.mem_node {α : Type} (x v : α) (l r : Tree α) :
    x ∈ (Tree.node l v r).toList ↔ x ∈ l.toList ∨ x = v ∨ x ∈ r.toList := by
  simp [Tree.toList]

/-- A layout survives every change of the free store that keeps the cells whose
value is a key of the tree. -/
theorem Represents_frame {α : Type} (heap heap1 : Heap α) :
    ∀ (tr : Tree α) (p : Ptr),
      (∀ b w, heap b = some w → w.value ∈ tr.toList → heap1 b = some w) →
      Represents heap p tr → Represents heap1 p tr := by
  intro tr
  induction tr with
  | nil =>
    intro p _ h
    exact h
  | node l v r ihl ihr =>
    intro p hframe h
    obtain ⟨a, pl, pr, hp, ha, hl, hr⟩ := h
    refine ⟨a, pl, pr, hp, hframe a _ ha ((Tree.mem_node v v l r).mpr (Or.inr (Or.inl rfl))),
      ihl pl (fun b w hb hm => hframe b w hb ((Tree.mem_node _ v l r).mpr (Or.inl hm))) hl,
      ihr pr (fun b w hb hm =>
        hframe b w hb ((Tree.mem_node _ v l r).mpr (Or.inr (Or.inr hm)))) hr⟩

theorem Tree.subtreeAt_subset {α : Type} [LinearOrder α] (k : α) :
    ∀ (tr : Tree α) (x : α), x ∈ (tr.subtreeAt k).toList → x ∈ tr.toList := by
  intro tr
  induction tr with
  | nil => intro x h; exact h
  | node l v r ihl ihr =>
    intro x h
    rw [Tree.subtreeAt] at h
    split_ifs at h
    · exact (Tree.mem_node x v l r).mpr (Or.inl (ihl x h))
    · exact (Tree.mem_node x v l r).mpr (Or.inr (Or.inr (ihr x h)))
    · exact h

theorem Tree.subtreeAt_BST {α : Type} [LinearOrder α] (k : α) :
    ∀ (tr : Tree α), tr.BST → (tr.subtreeAt k).BST := by
  intro tr
  induction tr with
  | nil => intro h; exact h
  | node l v r ihl ihr =>
    intro h
    rw [Tree.subtreeAt]
    split_ifs
    · exact ihl h.2.2.1
    · exact ihr h.2.2.2
    · exact h

theorem Tree.subtreeAt_of_mem {α : Type} [LinearOrder α] (k : α) :
    ∀ (tr : Tree α), tr.BST → k ∈ tr.toList → ∃ l r, tr.subtreeAt k = .node l k r := by
  intro tr
  induction tr with
  | nil => intro _ h; simp [Tree.toList] at h
  | node l v r ihl ihr =>
    intro hbst hmem
    obtain ⟨hlt, hgt, hbl, hbr⟩ := hbst
    rw [Tree.subtreeAt]
    rcases (Tree.mem_node k v l r).mp hmem with h | h | h
    · rw [if_pos (hlt k h)]
      exact ihl hbl h
    · subst h
      rw [if_neg (lt_irrefl k), if_neg (lt_irrefl k)]
      exact ⟨l, r, rfl⟩
    · rw [if_neg (not_lt.mpr (le_of_lt (hgt k h))), if_pos (hgt k h)]
      exact ihr hbr h

/-! ## The cursor after a successful search on a search-tree layout -/

/-- Where a successful search parks the cursor: on a vertex linked below the start
that carries the subtree of the node holding `k`; its parent, if a step was taken, is
the previous vertex; and replacing the layout at that vertex replaces the subtree. -/
theorem findLoop_found {α : Type} [LinearOrder α] (heap : Heap α) (k : α) :
    ∀ (tr : Tree α) (fuel : Nat) (st : SearchState),
      Represents heap st.currentVertex tr → tr.BST → tr.height ≤ fuel → k ∈ tr.toList →
      ∃ st1 c, findLoop heap k fuel st = .ok (true, st1) ∧ st1.currentVertex = some c ∧
        Linked heap st.currentVertex c ∧
        Represents heap (some c) (tr.subtreeAt k) ∧
        (st1 = st ∨ ∃ p wp, st1.previousVertex = some p ∧ heap p = some wp ∧
            Linked heap st.currentVertex p ∧
            wp.edge st1.lastStep = some c ∧ wp.value ∈ tr.toList ∧
            wp.value ∉ (tr.subtreeAt k).toList) ∧
        (∀ (heap1 : Heap α) (sub1 : Tree α),
          (∀ b w, heap b = some w → w.value ∈ tr.toList →
            w.value ∉ (tr.subtreeAt k).toList → heap1 b = some w) →
          Represents heap1 (some c) sub1 →
          Represents heap1 st.currentVertex (Tree.replaceAt k sub1 tr)) := by
  intro tr
  induction tr with
  | nil =>
    intro fuel st _ _ _ hmem
    simp [Tree.toList] at hmem
  | node l v r ihl ihr =>
    intro fuel st hrep hbst hfuel hmem
    obtain ⟨a, pl, pr, hc, ha, hl, hr⟩ := hrep
    obtain ⟨hlt, hgt, hbl, hbr⟩ := hbst
    simp only [Tree.height] at hfuel
    obtain ⟨f, rfl⟩ : ∃ f, fuel = f + 1 := ⟨fuel - 1, by omega⟩
    have hfl : l.height ≤ f := by have := le_max_left l.height r.height; omega
    have hfr : r.height ≤ f := by have := le_max_right l.height r.height; omega
    have hvmem : v ∈ (Tree.node l v r).toList :=
      (Tree.mem_node v v l r).mpr (Or.inr (Or.inl rfl))
    rw [findLoop]
    simp only [hc, deref, ha, SearchState.goToLeft, SearchState.goToRight, gt_iff_lt]
    by_cases h1 : k < v
    · have hkl : k ∈ l.toList := by
        rcases (Tree.mem_node k v l r).mp hmem with h | h | h
        · exact h
        · exact absurd h (ne_of_lt h1)
        · exact absurd (hgt k h) (not_lt.mpr (le_of_lt h1))
      have hsubeq : (Tree.node l v r).subtreeAt k = l.subtreeAt k := by
        simp only [Tree.subtreeAt, if_pos h1]
      have hrepeq : ∀ sub1, Tree.replaceAt k sub1 (Tree.node l v r) =
          Tree.node (Tree.replaceAt k sub1 l) v r := by
        intro sub1
        simp only [Tree.replaceAt, if_pos h1]
      have hvsub : ∀ y, y ∈ (l.subtreeAt k).toList → y < v :=
        fun y hy => hlt y (Tree.subtreeAt_subset k l y hy)
      obtain ⟨st1, c, hloop, hcur, hlink, hsub, hpar, hctx⟩ :=
        ihl f ⟨some a, pl, Direction.LEFT⟩ hl hbl hfl hkl
      refine ⟨st1, c, by rw [if_pos h1]; exact hloop, hcur,
        Linked.left a _ c ha hlink, by rw [hsubeq]; exact hsub, Or.inr ?_, ?_⟩
      · rcases hpar with hst | ⟨p, wp, hp, hwp, hlp, hedge, hin, _⟩
        · refine ⟨a, _, by rw [hst], ha, Linked.here a, ?_, hvmem, ?_⟩
          · rw [hst, ← hcur, hst]
            rfl
          · rw [hsubeq]
            exact fun hv => lt_irrefl v (hvsub v hv)
        · refine ⟨p, wp, hp, hwp, Linked.left a _ p ha hlp, hedge,
            (Tree.mem_node _ v l r).mpr (Or.inl hin), ?_⟩
          rw [hsubeq]
          assumption
      · intro heap1 sub1 hframe hrepc
        rw [hrepeq]
        refine ⟨a, pl, pr, rfl, ?_, ?_, ?_⟩
        · refine hframe a _ ha hvmem ?_
          rw [hsubeq]
          exact fun hv => lt_irrefl v (hvsub v hv)
        · refine hctx heap1 sub1 (fun b w hb hm hn => ?_) hrepc
          exact hframe b w hb ((Tree.mem_node _ v l r).mpr (Or.inl hm)) (by rw [hsubeq]; exact hn)
        · refine Represents_frame heap heap1 r pr (fun b w hb hm => ?_) hr
          refine hframe b w hb ((Tree.mem_node _ v l r).mpr (Or.inr (Or.inr hm))) ?_
          rw [hsubeq]
          exact fun hv => lt_asymm (hvsub _ hv) (hgt _ hm)
    · by_cases h2 : v < k
      · have hkr : k ∈ r.toList := by
          rcases (Tree.mem_node k v l r).mp hmem with h | h | h
          · exact absurd (hlt k h) (not_lt.mpr (le_of_lt h2))
          · exact absurd h (ne_of_gt h2)
          · exact h
        have hsubeq : (Tree.node l v r).subtreeAt k = r.subtreeAt k := by
          simp only [Tree.subtreeAt, if_neg h1, if_pos h2]
        have hrepeq : ∀ sub1, Tree.replaceAt k sub1 (Tree.node l v r) =
            Tree.node l v (Tree.replaceAt k sub1 r) := by
          intro sub1
          simp only [Tree.replaceAt, if_neg h1, if_pos h2]
        have hvsub : ∀ y, y ∈ (r.subtreeAt k).toList → v < y :=
          fun y hy => hgt y (Tree.subtreeAt_subset k r y hy)
        obtain ⟨st1, c, hloop, hcur, hlink, hsub, hpar, hctx⟩ :=
          ihr f ⟨some a, pr, Direction.RIGHT⟩ hr hbr hfr hkr
        refine ⟨st1, c, by rw [if_neg h1, if_pos h2]; exact hloop, hcur,
          Linked.right a _ c ha hlink, by rw [hsubeq]; exact hsub, Or.inr ?_, ?_⟩
        · rcases hpar with hst | ⟨p, wp, hp, hwp, hlp, hedge, hin, _⟩
          · refine ⟨a, _, by rw [hst], ha, Linked.here a, ?_, hvmem, ?_⟩
            · rw [hst, ← hcur, hst]
              rfl
            · rw [hsubeq]
              exact fun hv => lt_irrefl v (hvsub v hv)
          · refine ⟨p, wp, hp, hwp, Linked.right a _ p ha hlp, hedge,
              (Tree.mem_node _ v l r).mpr (Or.inr (Or.inr hin)), ?_⟩
            rw [hsubeq]
            assumption
        · intro heap1 sub1 hframe hrepc
          rw [hrepeq]
          refine ⟨a, pl, pr, rfl, ?_, ?_, ?_⟩
          · refine hframe a _ ha hvmem ?_
            rw [hsubeq]
            exact fun hv => lt_irrefl v (hvsub v hv)
          · refine Represents_frame heap heap1 l pl (fun b w hb hm => ?_) hl
            refine hframe b w hb ((Tree.mem_node _ v l r).mpr (Or.inl hm)) ?_
            rw [hsubeq]
            exact fun hv => lt_asymm (hvsub _ hv) (hlt _ hm)
          · refine hctx heap1 sub1 (fun b w hb hm hn => ?_) hrepc
            exact hframe b w hb ((Tree.mem_node _ v l r).mpr (Or.inr (Or.inr hm)))
              (by rw [hsubeq]; exact hn)
      · have hsubeq : (Tree.node l v r).subtreeAt k = Tree.node l v r := by
          simp only [Tree.subtreeAt, if_neg h1, if_neg h2]
        refine ⟨st, a, by rw [if_neg h1, if_neg h2], hc, Linked.here a,
          by rw [hsubeq]; exact ⟨a, pl, pr, rfl, ha, hl, hr⟩, Or.inl rfl, ?_⟩
        intro heap1 sub1 _ hrepc
        simp only [Tree.replaceAt, if_neg h1, if_neg h2]
        exact hrepc

/-! ## The cursor after a failed search on a search-tree layout -/

theorem Tree.mem_insert {α : Type} [LinearOrder α] (k x : α) :
    ∀ (tr : Tree α), x ∈ (tr.insert k).toList ↔ x = k ∨ x ∈ tr.toList := by
  intro tr
  induction tr with
  | nil => simp [Tree.insert, Tree.toList]
  | node l v r ihl ihr =>
    rw [Tree.insert]
    split_ifs
    · rw [Tree.mem_node, Tree.mem_node, ihl]
      tauto
    · rw [Tree.mem_node, Tree.mem_node, ihr]
      tauto
    · have hkv : k = v := le_antisymm (not_lt.mp ‹¬v < k›) (not_lt.mp ‹¬k < v›)
      rw [Tree.mem_node, hkv]
      tauto

theorem Tree.insert_BST {α : Type} [LinearOrder α] (k : α) :
    ∀ (tr : Tree α), tr.BST → (tr.insert k).BST := by
  intro tr
  induction tr with
  | nil =>
    intro _
    simp [Tree.insert, Tree.BST, Tree.toList]
  | node l v r ihl ihr =>
    intro h
    obtain ⟨hlt, hgt, hbl, hbr⟩ := h
    rw [Tree.insert]
    split_ifs with h1 h2
    · refine ⟨fun x hx => ?_, hgt, ihl hbl, hbr⟩
      rcases (Tree.mem_insert k x l).mp hx with hxk | hxl
      · rw [hxk]; exact h1
      · exact hlt x hxl
    · refine ⟨hlt, fun x hx => ?_, hbl, ihr hbr⟩
      rcases (Tree.mem_insert k x r).mp hx with hxk | hxr
      · rw [hxk]; exact h2
      · exact hgt x hxr
    · exact ⟨hlt, hgt, hbl, hbr⟩

theorem store_store_frame {α : Type} (heap : Heap α) (n p b : Nat) (x y wp w : Vertex α)
    (hn : heap n = none) (hp : heap p = some wp) (hb : heap b = some w)
    (hne : w.value ≠ wp.value) : store (store heap n x) p y b = some w := by
  have hbp : b ≠ p := by
    intro h
    rw [h, hp] at hb
    cases hb
    exact hne rfl
  have hbn : b ≠ n := by
    intro h
    rw [h, hn] at hb
    cases hb
  simp [store, hbp, hbn, hb]

/-- Where a failed search parks the cursor: the current vertex is null, the previous
vertex is linked below the start and has no child on the side of the last step, and
linking a new leaf holding `k` there lays out the tree with `k` inserted. -/
theorem findLoop_absent {α : Type} [LinearOrder α] (heap : Heap α) (k : α) :
    ∀ (tr : Tree α) (fuel : Nat) (st : SearchState),
      Represents heap st.currentVertex tr → tr.BST → tr.height ≤ fuel → k ∉ tr.toList →
      tr ≠ Tree.nil →
      ∃ st1 p wp, findLoop heap k fuel st = .ok (false, st1) ∧ st1.currentVertex = none ∧
        st1.previousVertex = some p ∧ heap p = some wp ∧ Linked heap st.currentVertex p ∧
        wp.edge st1.lastStep = none ∧ wp.value ∈ tr.toList ∧
        ∀ n, heap n = none →
          Represents
            (store (store heap n { value := k, leftEdge := none, rightEdge := none }) p
              (wp.setEdge st1.lastStep (some n)))
            st.currentVertex (tr.insert k) := by
  intro tr
  induction tr with
  | nil =>
    intro fuel st _ _ _ _ hne
    exact absurd rfl hne
  | node l v r ihl ihr =>
    intro fuel st hrep hbst hfuel hmem _
    obtain ⟨a, pl, pr, hc, ha, hl, hr⟩ := hrep
    obtain ⟨hlt, hgt, hbl, hbr⟩ := hbst
    simp only [Tree.height] at hfuel
    obtain ⟨f, rfl⟩ : ∃ f, fuel = f + 1 := ⟨fuel - 1, by omega⟩
    have hfl : l.height ≤ f := by have := le_max_left l.height r.height; omega
    have hfr : r.height ≤ f := by have := le_max_right l.height r.height; omega
    have hvmem : v ∈ (Tree.node l v r).toList :=
      (Tree.mem_node v v l r).mpr (Or.inr (Or.inl rfl))
    have hkv : k ≠ v := fun h => hmem (h ▸ hvmem)
    have hkl : k ∉ l.toList := fun h => hmem ((Tree.mem_node k v l r).mpr (Or.inl h))
    have hkr : k ∉ r.toList := fun h => hmem ((Tree.mem_node k v l r).mpr (Or.inr (Or.inr h)))
    rw [findLoop]
    simp only [hc, deref, ha, SearchState.goToLeft, SearchState.goToRight, gt_iff_lt]
    by_cases h1 : k < v
    · rw [if_pos h1]
      have hins : (Tree.node l v r).insert k = Tree.node (l.insert k) v r := by
        simp only [Tree.insert, if_pos h1]
      by_cases hln : l = Tree.nil
      · subst hln
        have hpl : pl = none := hl
        subst hpl
        refine ⟨⟨some a, none, Direction.LEFT⟩, a, _, findLoop_null heap k f _ rfl, rfl, rfl,
          ha, Linked.here a, rfl, hvmem, ?_⟩
        intro n hn
        rw [hins]
        have han : a ≠ n := by
          intro h
          rw [h, hn] at ha
          cases ha
        refine ⟨a, some n, pr, rfl, by simp [store, Vertex.setEdge],
          ⟨n, none, none, rfl, by simp [store, Ne.symm han], rfl, rfl⟩, ?_⟩
        exact Represents_frame heap _ r pr
          (fun b w hb hm => store_store_frame heap n a b _ _ _ w hn ha hb
            (ne_of_gt (hgt _ hm))) hr
      · obtain ⟨st1, p, wp, hloop, hcur, hprev, hwp, hlink, hedge, hin, hplace⟩ :=
          ihl f ⟨some a, pl, Direction.LEFT⟩ hl hbl hfl hkl hln
        refine ⟨st1, p, wp, hloop, hcur, hprev, hwp, Linked.left a _ p ha hlink, hedge,
          (Tree.mem_node _ v l r).mpr (Or.inl hin), ?_⟩
        intro n hn
        rw [hins]
        refine ⟨a, pl, pr, rfl, ?_, hplace n hn, ?_⟩
        · exact store_store_frame heap n p a _ _ wp _ hn hwp ha (ne_of_gt (hlt _ hin))
        · exact Represents_frame heap _ r pr
            (fun b w hb hm => store_store_frame heap n p b _ _ wp w hn hwp hb
              (ne_of_gt (lt_trans (hlt _ hin) (hgt _ hm)))) hr
    · have h2 : v < k := lt_of_le_of_ne (not_lt.mp h1) (Ne.symm hkv)
      rw [if_neg h1, if_pos h2]
      have hins : (Tree.node l v r).insert k = Tree.node l v (r.insert k) := by
        simp only [Tree.insert, if_neg h1, if_pos h2]
      by_cases hrn : r = Tree.nil
      · subst hrn
        have hpr : pr = none := hr
        subst hpr
        refine ⟨⟨some a, none, Direction.RIGHT⟩, a, _, findLoop_null heap k f _ rfl, rfl, rfl,
          ha, Linked.here a, rfl, hvmem, ?_⟩
        intro n hn
        rw [hins]
        have han : a ≠ n := by
          intro h
          rw [h, hn] at ha
          cases ha
        refine ⟨a, pl, some n, rfl, by simp [store, Vertex.setEdge], ?_,
          ⟨n, none, none, rfl, by simp [store, Ne.symm han], rfl, rfl⟩⟩
        exact Represents_frame heap _ l pl
          (fun b w hb hm => store_store_frame heap n a b _ _ _ w hn ha hb
            (ne_of_lt (hlt _ hm))) hl
      · obtain ⟨st1, p, wp, hloop, hcur, hprev, hwp, hlink, hedge, hin, hplace⟩ :=
          ihr f ⟨some a, pr, Direction.RIGHT⟩ hr hbr hfr hkr hrn
        refine ⟨st1, p, wp, hloop, hcur, hprev, hwp, Linked.right a _ p ha hlink, hedge,
          (Tree.mem_node _ v l r).mpr (Or.inr (Or.inr hin)), ?_⟩
        intro n hn
        rw [hins]
        refine ⟨a, pl, pr, rfl, ?_, ?_, hplace n hn⟩
        · exact store_store_frame heap n p a _ _ wp _ hn hwp ha (ne_of_lt (hgt _ hin))
        · exact Represents_frame heap _ l pl
            (fun b w hb hm => store_store_frame heap n p b _ _ wp w hn hwp hb
              (ne_of_lt (lt_trans (hlt _ hm) (hgt _ hin)))) hl

/-- The parked cursor after a successful `findByValue` on a search-tree layout. -/
theorem findByValue_found {α : Type} [LinearOrder α] (t : BinaryTree α) (tr : Tree α)
    (k : α) (fuel : Nat) (hrep : Represents t.heap t.root tr) (hbst : tr.BST)
    (hfuel : tr.height ≤ fuel) (hmem : k ∈ tr.toList) :
    ∃ st1 c, findByValue fuel t k = .ok (true, { t with searchState := st1 }) ∧
      st1.currentVertex = some c ∧ Linked t.heap t.root c ∧
      Represents t.heap (some c) (tr.subtreeAt k) ∧
      (some c = t.root ∨ ∃ p wp, st1.previousVertex = some p ∧ t.heap p = some wp ∧
          Linked t.heap t.root p ∧ wp.edge st1.lastStep = some c ∧ wp.value ∈ tr.toList ∧
          wp.value ∉ (tr.subtreeAt k).toList) ∧
      (∀ (heap1 : Heap α) (sub1 : Tree α),
        (∀ b w, t.heap b = some w → w.value ∈ tr.toList →
          w.value ∉ (tr.subtreeAt k).toList → heap1 b = some w) →
        Represents heap1 (some c) sub1 →
        Represents heap1 t.root (Tree.replaceAt k sub1 tr)) := by
  obtain ⟨st1, c, hloop, hcur, hlink, hsub, hpar, hctx⟩ :=
    findLoop_found t.heap k tr fuel (t.searchState.reset none t.root) hrep hbst hfuel hmem
  refine ⟨st1, c, by simp [findByValue, hloop], hcur, hlink, hsub, ?_, hctx⟩
  rcases hpar with hst | hp
  · left
    rw [← hcur, hst]
    rfl
  · exact Or.inr hp

/-- C14: on every search-tree layout, with a step budget of at least the height,
`findByValue k` returns. After `true` the cursor's current vertex is a vertex of the
tree that holds `k`, and unless it is the root the previous vertex is a vertex of
the tree whose link on side `lastStep` is the current vertex. After `false` on a
non-empty tree the current vertex is null, the previous vertex is a vertex of the
tree with no child on side `lastStep`, and linking a new leaf holding `k` there lays
out a search tree. -/
theorem cursor_parked {α : Type} [LinearOrder α] (t : BinaryTree α) (tr : Tree α) (k : α)
    (fuel : Nat) (hrep : Represents t.heap t.root tr) (hbst : tr.BST)
    (hfuel : tr.height ≤ fuel) :
    ∃ b t1, findByValue fuel t k = .ok (b, t1) ∧ (b = true ↔ k ∈ tr.toList) ∧
      (b = true →
        ∃ c w, t1.searchState.currentVertex = some c ∧ Linked t.heap t.root c ∧
          t.heap c = some w ∧ w.value = k ∧
          (some c ≠ t.root →
            ∃ p wp, t1.searchState.previousVertex = some p ∧ Linked t.heap t.root p ∧
              t.heap p = some wp ∧ wp.edge t1.searchState.lastStep = some c)) ∧
      (b = false → tr ≠ Tree.nil →
        t1.searchState.currentVertex = none ∧
        ∃ p wp, t1.searchState.previousVertex = some p ∧ Linked t.heap t.root p ∧
          t.heap p = some wp ∧ wp.edge t1.searchState.lastStep = none ∧
          (tr.insert k).BST ∧
          ∀ n, t.heap n = none →
            Represents
              (store (store t.heap n { value := k, leftEdge := none, rightEdge := none }) p
                (wp.setEdge t1.searchState.lastStep (some n)))
              t.root (tr.insert k)) := by
  by_cases hmem : k ∈ tr.toList
  · obtain ⟨st1, c, hfind, hcur, hlink, hsub, hpar, _⟩ :=
      findByValue_found t tr k fuel hrep hbst hfuel hmem
    obtain ⟨l0, r0, hsubeq⟩ := Tree.subtreeAt_of_mem k tr hbst hmem
    rw [hsubeq] at hsub
    obtain ⟨a, pl, pr, hca, ha, _, _⟩ := hsub
    cases hca
    refine ⟨true, _, hfind, by simp [hmem], fun _ => ?_, fun h => absurd h (by simp)⟩
    refine ⟨c, _, hcur, hlink, ha, rfl, fun hne => ?_⟩
    rcases hpar with h | ⟨p, wp, hp, hwp, hlp, hedge, _, _⟩
    · exact absurd h hne
    · exact ⟨p, wp, hp, hlp, hwp, hedge⟩
  · by_cases hnil : tr = Tree.nil
    · subst hnil
      have hr : t.root = none := hrep
      exact ⟨false, _, findByValue_empty fuel t k hr, by simp [Tree.toList],
        fun h => absurd h (by simp), fun _ h => absurd rfl h⟩
    · obtain ⟨st1, p, wp, hloop, hcur, hprev, hwp, hlink, hedge, _, hplace⟩ :=
        findLoop_absent t.heap k tr fuel (t.searchState.reset none t.root) hrep hbst hfuel
          hmem hnil
      refine ⟨false, { t with searchState := st1 }, by simp [findByValue, hloop],
        by simp [hmem], fun h => absurd h (by simp), fun _ _ => ?_⟩
      exact ⟨hcur, p, wp, hprev, hlink, hwp, hedge, Tree.insert_BST k tr hbst, hplace⟩

/-- Witness of C14: searching `8` in the three-node tree. -/
theorem cursor_parked_witness :
    Represents threeNodes.heap threeNodes.root threeTree ∧ threeTree.BST ∧
      threeTree.height ≤ 2 ∧
      ∃ b t1, findByValue 2 threeNodes 8 = .ok (b, t1) ∧ (b = true ↔ 8 ∈ threeTree.toList) ∧
        (b = true →
          ∃ c w, t1.searchState.currentVertex = some c ∧
            Linked threeNodes.heap threeNodes.root c ∧
            threeNodes.heap c = some w ∧ w.value = 8 ∧
            (some c ≠ threeNodes.root →
              ∃ p wp, t1.searchState.previousVertex = some p ∧
                Linked threeNodes.heap threeNodes.root p ∧
                threeNodes.heap p = some wp ∧
                wp.edge t1.searchState.lastStep = some c)) ∧
        (b = false → threeTree ≠ Tree.nil →
          t1.searchState.currentVertex = none ∧
          ∃ p wp, t1.searchState.previousVertex = some p ∧
            Linked threeNodes.heap threeNodes.root p ∧
            threeNodes.heap p = some wp ∧ wp.edge t1.searchState.lastStep = none ∧
            (threeTree.insert 8).BST ∧
            ∀ n, threeNodes.heap n = none →
              Represents
                (store (store threeNodes.heap n
                    { value := 8, leftEdge := none, rightEdge := none }) p
                  (wp.setEdge t1.searchState.lastStep (some n)))
                threeNodes.root (threeTree.insert 8)) :=
  ⟨⟨0, some 1, some 2, rfl, rfl, ⟨1, none, none, rfl, rfl, rfl, rfl⟩,
      ⟨2, none, none, rfl, rfl, rfl, rfl⟩⟩,
    by simp [threeTree, Tree.BST, Tree.toList], by decide,
    cursor_parked threeNodes threeTree 8 2
      ⟨0, some 1, some 2, rfl, rfl, ⟨1, none, none, rfl, rfl, rfl, rfl⟩,
        ⟨2, none, none, rfl, rfl, rfl, rfl⟩⟩
      (by simp [threeTree, Tree.BST, Tree.toList]) (by decide)⟩

/-! ## One-child deletion -/

theorem Tree.relinkChild_right {α : Type} [LinearOrder α] (k : α) (rl rr : Tree α) (rv : α) :
    ∀ (tr : Tree α) (v0 : α), tr.subtreeAt k = .node .nil v0 (.node rl rv rr) →
      tr.relinkChild k = Tree.replaceAt k (.node rl rv rr) tr := by
  intro tr
  induction tr with
  | nil => intro v0 h; simp [Tree.subtreeAt] at h
  | node l v r ihl ihr =>
    intro v0 h
    by_cases h1 : k < v
    · simp only [Tree.subtreeAt, if_pos h1] at h
      simp only [Tree.relinkChild, Tree.replaceAt, if_pos h1]
      rw [ihl v0 h]
    · by_cases h2 : v < k
      · simp only [Tree.subtreeAt, if_neg h1, if_pos h2] at h
        simp only [Tree.relinkChild, Tree.replaceAt, if_neg h1, if_pos h2]
        rw [ihr v0 h]
      · simp only [Tree.subtreeAt, if_neg h1, if_neg h2] at h
        cases h
        simp only [Tree.relinkChild, Tree.replaceAt, if_neg h1, if_neg h2]

theorem Tree.relinkChild_left {α : Type} [LinearOrder α] (k : α) (ll lr : Tree α) (lv : α) :
    ∀ (tr : Tree α) (v0 : α), tr.subtreeAt k = .node (.node ll lv lr) v0 .nil →
      tr.relinkChild k = Tree.replaceAt k (.node ll lv lr) tr := by
  intro tr
  induction tr with
  | nil => intro v0 h; simp [Tree.subtreeAt] at h
  | node l v r ihl ihr =>
    intro v0 h
    by_cases h1 : k < v
    · simp only [Tree.subtreeAt, if_pos h1] at h
      simp only [Tree.relinkChild, Tree.replaceAt, if_pos h1]
      rw [ihl v0 h]
    · by_cases h2 : v < k
      · simp only [Tree.subtreeAt, if_neg h1, if_pos h2] at h
        simp only [Tree.relinkChild, Tree.replaceAt, if_neg h1, if_pos h2]
        rw [ihr v0 h]
      · simp only [Tree.subtreeAt, if_neg h1, if_neg h2] at h
        cases h
        simp only [Tree.relinkChild, Tree.replaceAt, if_neg h1, if_neg h2]

/-- The last statement of `deleteByState` when the deleted vertex keeps its address:
the call returns, and root, size and every cell of the free store stay as they are. -/
theorem deleteFinish_keep {α : Type} (t : BinaryTree α) (c : Nat)
    (hc : t.searchState.currentVertex = some c)
    (hp : some c = t.root ∨ ∃ p wp, t.searchState.previousVertex = some p ∧
        t.heap p = some wp ∧ wp.edge t.searchState.lastStep = some c) :
    ∃ t1, deleteFinish (decide (some c = t.root)) t = .ok t1 ∧ t1.root = t.root ∧
      (∀ b, t1.heap b = t.heap b) ∧ t1.treeSize = t.treeSize := by
  by_cases hroot : some c = t.root
  · refine ⟨{ t with root := t.searchState.currentVertex }, ?_, ?_, fun _ => rfl, rfl⟩
    · simp [deleteFinish, hroot, pure, Except.pure]
    · show t.searchState.currentVertex = t.root
      rw [hc, hroot]
  · rcases hp with h | ⟨p, wp, hprev, hwp, hedge⟩
    · exact absurd h hroot
    · cases hl : t.searchState.lastStep with
      | LEFT =>
        rw [hl] at hedge
        refine ⟨{ t with heap := store t.heap p { wp with leftEdge := some c } }, ?_, rfl, ?_,
          rfl⟩
        · simp [deleteFinish, hroot, SearchState.replaceLink, hprev, hwp, hl, hc, bind,
            Except.bind, pure, Except.pure]
        · intro b
          by_cases hb : b = p
          · subst hb
            have : ({ wp with leftEdge := some c } : Vertex α) = wp := by
              cases wp
              simp only [Vertex.edge] at hedge
              simp [hedge]
            simp [store, this, hwp]
          · simp [store, hb]
      | RIGHT =>
        rw [hl] at hedge
        refine ⟨{ t with heap := store t.heap p { wp with rightEdge := some c } }, ?_, rfl, ?_,
          rfl⟩
        · simp [deleteFinish, hroot, SearchState.replaceLink, hprev, hwp, hl, hc, bind,
            Except.bind, pure, Except.pure]
        · intro b
          by_cases hb : b = p
          · subst hb
            have : ({ wp with rightEdge := some c } : Vertex α) = wp := by
              cases wp
              simp only [Vertex.edge] at hedge
              simp [hedge]
            simp [store, this, hwp]
          · simp [store, hb]

/-- The free store after a one-child splice lays out the child's subtree at the
address of the deleted vertex. -/
theorem splice_represents {α : Type} (heap heapF : Heap α) (c d : Nat) (cur child : Vertex α)
    (cl cr : Tree α) (hcur : heap c = some cur) (hchild : heap d = some child)
    (hl : Represents heap child.leftEdge cl) (hr : Represents heap child.rightEdge cr)
    (hF : ∀ b, heapF b = free (store heap c (cur.replaceVertex child)) d b)
    (hkl : cur.value ∉ cl.toList) (hkr : cur.value ∉ cr.toList)
    (hvl : child.value ∉ cl.toList) (hvr : child.value ∉ cr.toList)
    (hkv : cur.value ≠ child.value) :
    Represents heapF (some c) (.node cl child.value cr) := by
  have hcd : c ≠ d := by
    intro h
    rw [h, hchild] at hcur
    cases hcur
    exact hkv rfl
  have hframe : ∀ (sub : Tree α), cur.value ∉ sub.toList → child.value ∉ sub.toList →
      ∀ b w, heap b = some w → w.value ∈ sub.toList → heapF b = some w := by
    intro sub h1 h2 b w hb hm
    have hbc : b ≠ c := by
      intro h
      rw [h, hcur] at hb
      cases hb
      exact h1 hm
    have hbd : b ≠ d := by
      intro h
      rw [h, hchild] at hb
      cases hb
      exact h2 hm
    rw [hF]
    simp [free, store, hbc, hbd, hb]
  refine ⟨c, child.leftEdge, child.rightEdge, rfl, ?_,
    Represents_frame heap heapF cl _ (hframe cl hkl hvl) hl,
    Represents_frame heap heapF cr _ (hframe cr hkr hvr) hr⟩
  rw [hF]
  simp [free, store, hcd, Vertex.replaceVertex]

theorem free_store_frame {α : Type} (heap : Heap α) (c d b : Nat) (x cur child w : Vertex α)
    (hcur : heap c = some cur) (hchild : heap d = some child) (hb : heap b = some w)
    (h1 : w.value ≠ cur.value) (h2 : w.value ≠ child.value) :
    free (store heap c x) d b = some w := by
  have hbc : b ≠ c := by
    intro h
    rw [h, hcur] at hb
    cases hb
    exact h1 rfl
  have hbd : b ≠ d := by
    intro h
    rw [h, hchild] at hb
    cases hb
    exact h2 rfl
  simp [free, store, hbc, hbd, hb]

/-- C13: on every search-tree layout, for every key `k` held by a node with exactly
one child and a step budget of at least the height, `deleteByValue k` returns and
the vertices then linked from the root lay out the tree in which that node is
replaced by the subtree of its single child. -/
theorem one_child_delete_relinks {α : Type} [LinearOrder α] (t : BinaryTree α)
    (tr : Tree α) (k : α) (fuel : Nat) (hrep : Represents t.heap t.root tr) (hbst : tr.BST)
    (hfuel : tr.height ≤ fuel) (hmem : k ∈ tr.toList) (hone : (tr.subtreeAt k).OneChild) :
    ∃ t1, deleteByValue fuel t k = .ok t1 ∧
      Represents t1.heap t1.root (tr.relinkChild k) := by
  obtain ⟨st1, c, hfind, hcur, _, hsub, hpar, hctx⟩ :=
    findByValue_found t tr k fuel hrep hbst hfuel hmem
  obtain ⟨l0, r0, hsubeq⟩ := Tree.subtreeAt_of_mem k tr hbst hmem
  have hsb := Tree.subtreeAt_BST k tr hbst
  rw [hsubeq] at hsb hsub hone
  have hdel : deleteByValue fuel t k = deleteByState fuel { t with searchState := st1 } k := by
    simp [deleteByValue, hfind]
  have hkin : k ∈ (tr.subtreeAt k).toList := by
    rw [hsubeq]
    exact (Tree.mem_node k k l0 r0).mpr (Or.inr (Or.inl rfl))
  cases l0 with
  | nil =>
    cases r0 with
    | nil => exact absurd hone (by simp [Tree.OneChild])
    | node rl rv rr =>
      obtain ⟨a, pl, pr, hca, ha, hpl, hpr⟩ := hsub
      cases hca
      have hpl1 : pl = none := hpl
      subst hpl1
      obtain ⟨d, prl, prr, hpd, hd, hrl, hrr⟩ := hpr
      subst hpd
      obtain ⟨_, hkgt, _, hrlt, hrgt, _, _⟩ := hsb
      have hrvin : rv ∈ (tr.subtreeAt k).toList := by
        rw [hsubeq]
        exact (Tree.mem_node rv k _ _).mpr
          (Or.inr (Or.inr ((Tree.mem_node rv rv rl rr).mpr (Or.inr (Or.inl rfl)))))
      have hkrv : k < rv := hkgt rv ((Tree.mem_node rv rv rl rr).mpr (Or.inr (Or.inl rfl)))
      have hbranch := deleteByState_right fuel { t with searchState := st1 } k c d _
        hcur ha rfl rfl
      simp only [hd] at hbranch
      obtain ⟨t1, hfin, hroot, hheap, _⟩ := deleteFinish_keep
        { heap := free (store t.heap c
            (Vertex.replaceVertex { value := k, leftEdge := none, rightEdge := some d }
              { value := rv, leftEdge := prl, rightEdge := prr })) d,
          next := t.next, root := t.root, searchState := st1,
          treeSize := sizeDecr t.treeSize } c hcur (by
            rcases hpar with h | ⟨p, wp, hp, hwp, _, hedge, _, hnin⟩
            · exact Or.inl h
            · exact Or.inr ⟨p, wp, hp,
                free_store_frame t.heap c d p _ _ _ wp ha hd hwp
                  (fun h => hnin (by rw [h]; exact hkin))
                  (fun h => hnin (by rw [h]; exact hrvin)), hedge⟩)
      refine ⟨t1, by rw [hdel, hbranch]; exact hfin, ?_⟩
      rw [hroot, Tree.relinkChild_right k rl rr rv tr k hsubeq]
      refine hctx t1.heap _ (fun b w hb _ hn => ?_) ?_
      · rw [hheap]
        exact free_store_frame t.heap c d b _ _ _ w ha hd hb
          (fun h => hn (by rw [h]; exact hkin)) (fun h => hn (by rw [h]; exact hrvin))
      · exact splice_represents t.heap t1.heap c d _ _ rl rr ha hd hrl hrr hheap
          (fun h => lt_asymm hkrv (by
            have := hkgt k ((Tree.mem_node k rv rl rr).mpr (Or.inl h))
            exact absurd this (lt_irrefl k)))
          (fun h => lt_irrefl k (hkgt k ((Tree.mem_node k rv rl rr).mpr (Or.inr (Or.inr h)))))
          (fun h => lt_irrefl rv (hrlt rv h)) (fun h => lt_irrefl rv (hrgt rv h))
          (ne_of_lt hkrv)
  | node ll lv lr =>
    cases r0 with
    | node rl rv rr => exact absurd hone (by simp [Tree.OneChild])
    | nil =>
      obtain ⟨a, pl, pr, hca, ha, hpl, hpr⟩ := hsub
      cases hca
      have hpr1 : pr = none := hpr
      subst hpr1
      obtain ⟨d, pll, plr, hpd, hd, hll, hlr⟩ := hpl
      subst hpd
      obtain ⟨hklt, _, ⟨hllt, hlgt, _, _⟩, _⟩ := hsb
      have hlvin : lv ∈ (tr.subtreeAt k).toList := by
        rw [hsubeq]
        exact (Tree.mem_node lv k _ _).mpr
          (Or.inl ((Tree.mem_node lv lv ll lr).mpr (Or.inr (Or.inl rfl))))
      have hlvk : lv < k := hklt lv ((Tree.mem_node lv lv ll lr).mpr (Or.inr (Or.inl rfl)))
      have hbranch := deleteByState_left fuel { t with searchState := st1 } k c d _
        hcur ha rfl rfl
      simp only [hd] at hbranch
      obtain ⟨t1, hfin, hroot, hheap, _⟩ := deleteFinish_keep
        { heap := free (store t.heap c
            (Vertex.replaceVertex { value := k, leftEdge := some d, rightEdge := none }
              { value := lv, leftEdge := pll, rightEdge := plr })) d,
          next := t.next, root := t.root, searchState := st1,
          treeSize := sizeDecr t.treeSize } c hcur (by
            rcases hpar with h | ⟨p, wp, hp, hwp, _, hedge, _, hnin⟩
            · exact Or.inl h
            · exact Or.inr ⟨p, wp, hp,
                free_store_frame t.heap c d p _ _ _ wp ha hd hwp
                  (fun h => hnin (by rw [h]; exact hkin))
                  (fun h => hnin (by rw [h]; exact hlvin)), hedge⟩)
      refine ⟨t1, by rw [hdel, hbranch]; exact hfin, ?_⟩
      rw [hroot, Tree.relinkChild_left k ll lr lv tr k hsubeq]
      refine hctx t1.heap _ (fun b w hb _ hn => ?_) ?_
      · rw [hheap]
        exact free_store_frame t.heap c d b _ _ _ w ha hd hb
          (fun h => hn (by rw [h]; exact hkin)) (fun h => hn (by rw [h]; exact hlvin))
      · exact splice_represents t.heap t1.heap c d _ _ ll lr ha hd hll hlr hheap
          (fun h => lt_irrefl k (hklt k ((Tree.mem_node k lv ll lr).mpr (Or.inl h))))
          (fun h => lt_irrefl k (hklt k ((Tree.mem_node k lv ll lr).mpr (Or.inr (Or.inr h)))))
          (fun h => lt_irrefl lv (hllt lv h)) (fun h => lt_irrefl lv (hlgt lv h))
          (ne_of_gt hlvk)

/-- Witness of C13: deleting `8`, which has the single child `9`, from the
four-node tree. -/
theorem one_child_delete_relinks_witness :
    Represents fourNodes.heap fourNodes.root fourTree ∧ fourTree.BST ∧
      fourTree.height ≤ 3 ∧ 8 ∈ fourTree.toList ∧ (fourTree.subtreeAt 8).OneChild ∧
      ∃ t1, deleteByValue 3 fourNodes 8 = .ok t1 ∧
        Represents t1.heap t1.root (fourTree.relinkChild 8) :=
  ⟨⟨0, some 1, some 2, rfl, rfl, ⟨1, none, none, rfl, rfl, rfl, rfl⟩,
      ⟨2, none, some 3, rfl, rfl, rfl, ⟨3, none, none, rfl, rfl, rfl, rfl⟩⟩⟩,
    by simp [fourTree, Tree.BST, Tree.toList], by decide,
    by simp [fourTree, Tree.toList],
    by simp [fourTree, Tree.subtreeAt, Tree.OneChild],
    one_child_delete_relinks fourNodes fourTree 8 3
      ⟨0, some 1, some 2, rfl, rfl, ⟨1, none, none, rfl, rfl, rfl, rfl⟩,
        ⟨2, none, some 3, rfl, rfl, rfl, ⟨3, none, none, rfl, rfl, rfl, rfl⟩⟩⟩
      (by simp [fourTree, Tree.BST, Tree.toList]) (by decide)
      (by simp [fourTree, Tree.toList])
      (by simp [fourTree, Tree.subtreeAt, Tree.OneChild])⟩

/-! ## `deleteByValue` returns on every search-tree layout -/

theorem live_store {α : Type} (heap : Heap α) (a b : Nat) (x : Vertex α)
    (h : ∃ w, heap b = some w) : ∃ w, store heap a x b = some w := by
  obtain ⟨w, hw⟩ := h
  by_cases hb : b = a
  · exact ⟨x, by simp [store, hb]⟩
  · exact ⟨w, by simp [store, hb, hw]⟩

theorem live_free {α : Type} (heap : Heap α) (a b : Nat) (hne : b ≠ a)
    (h : ∃ w, heap b = some w) : ∃ w, free heap a b = some w := by
  obtain ⟨w, hw⟩ := h
  exact ⟨w, by simp [free, hne, hw]⟩

theorem replaceLink_ok {α : Type} (heap : Heap α) (st : SearchState) (x : Ptr) (q : Nat)
    (wq : Vertex α) (hq : st.previousVertex = some q) (hwq : heap q = some wq) :
    ∃ y, st.replaceLink heap x = .ok (store heap q y) := by
  cases hl : st.lastStep with
  | LEFT =>
    exact ⟨{ wq with leftEdge := st.currentVertex }, by
      simp [SearchState.replaceLink, hq, hwq, hl]⟩
  | RIGHT =>
    exact ⟨{ wq with rightEdge := st.currentVertex }, by
      simp [SearchState.replaceLink, hq, hwq, hl]⟩

theorem deleteFinish_ok {α : Type} (flag : Bool) (t : BinaryTree α)
    (h : flag = true ∨ ∃ p w, t.searchState.previousVertex = some p ∧ t.heap p = some w) :
    ∃ t1, deleteFinish flag t = .ok t1 ∧ t1.treeSize = t.treeSize := by
  cases flag with
  | true =>
    exact ⟨{ t with root := t.searchState.currentVertex }, by
      simp [deleteFinish, pure, Except.pure], rfl⟩
  | false =>
    rcases h with h | ⟨p, w, hp, hw⟩
    · exact absurd h (by simp)
    · obtain ⟨y, hy⟩ := replaceLink_ok t.heap t.searchState t.searchState.currentVertex p w
        hp hw
      exact ⟨{ t with heap := store t.heap p y }, by
        simp [deleteFinish, hy, bind, Except.bind, pure, Except.pure], rfl⟩

/-- On a laid-out non-empty tree the successor walk returns, parked on a vertex of
the tree, with a live previous vertex. -/
theorem leftmostLoop_layout {α : Type} (heap : Heap α) :
    ∀ (sub : Tree α) (fuel : Nat) (ds : SearchState) (q0 : Nat) (wq0 : Vertex α),
      sub ≠ Tree.nil → Represents heap ds.currentVertex sub → sub.height ≤ fuel + 1 →
      ds.previousVertex = some q0 → heap q0 = some wq0 →
      ∃ ds1 s ws q wq, leftmostLoop heap fuel ds = .ok ds1 ∧ ds1.currentVertex = some s ∧
        heap s = some ws ∧ ws.value ∈ sub.toList ∧ ds1.previousVertex = some q ∧
        heap q = some wq := by
  intro sub
  induction sub with
  | nil => intro _ _ _ _ h; exact absurd rfl h
  | node l v r ihl _ =>
    intro fuel ds q0 wq0 _ hrep hfuel hq hwq
    obtain ⟨a, pl, pr, hc, ha, hl, hr⟩ := hrep
    have hvmem : v ∈ (Tree.node l v r).toList :=
      (Tree.mem_node v v l r).mpr (Or.inr (Or.inl rfl))
    simp only [Tree.height] at hfuel
    have hfl : l.height ≤ fuel := by have := le_max_left l.height r.height; omega
    have hnil : l = Tree.nil → pl = none := fun h => by
      subst h
      exact hl
    have hnode : l ≠ Tree.nil → pl ≠ none ∧ 1 ≤ l.height := fun hln => by
      cases l with
      | nil => exact absurd rfl hln
      | node ll lv lr =>
        obtain ⟨b, _, _, hb, _⟩ := hl
        exact ⟨by rw [hb]; simp, by simp [Tree.height]⟩
    cases fuel with
    | zero =>
      rw [leftmostLoop]
      simp only [hc, deref, ha]
      by_cases hln : l = Tree.nil
      · rw [if_neg (by simp [hnil hln])]
        exact ⟨ds, a, _, q0, wq0, rfl, hc, ha, hvmem, hq, hwq⟩
      · have := (hnode hln).2
        omega
    | succ f =>
      rw [leftmostLoop]
      simp only [hc, deref, ha]
      by_cases hln : l = Tree.nil
      · rw [if_neg (by simp [hnil hln])]
        exact ⟨ds, a, _, q0, wq0, rfl, hc, ha, hvmem, hq, hwq⟩
      · rw [if_pos (hnode hln).1]
        simp only [SearchState.goToLeft, deref, hc, ha]
        obtain ⟨ds1, s, ws, q, wq, hloop, hs, hws, hin, hq1, hwq1⟩ :=
          ihl f ⟨some a, pl, Direction.LEFT⟩ a _ hln hl hfl rfl ha
        exact ⟨ds1, s, ws, q, wq, hloop, hs, hws,
          (Tree.mem_node _ v l r).mpr (Or.inl hin), hq1, hwq1⟩

theorem Tree.subtreeAt_height {α : Type} [LinearOrder α] (k : α) :
    ∀ (tr : Tree α), (tr.subtreeAt k).height ≤ tr.height := by
  intro tr
  induction tr with
  | nil => exact le_refl _
  | node l v r ihl ihr =>
    rw [Tree.subtreeAt]
    have h1 := le_max_left l.height r.height
    have h2 := le_max_right l.height r.height
    split_ifs
    · simp only [Tree.height]; omega
    · simp only [Tree.height]; omega
    · exact le_refl _

theorem free_frame {α : Type} (heap : Heap α) (c b : Nat) (cur w : Vertex α)
    (hcur : heap c = some cur) (hb : heap b = some w) (h1 : w.value ≠ cur.value) :
    free heap c b = some w := by
  have hbc : b ≠ c := by
    intro h
    rw [h, hcur] at hb
    cases hb
    exact h1 rfl
  simp [free, hbc, hb]

/-- With the cursor parked by a successful search on a search-tree layout,
`deleteByState` returns in each of its four branches, the size decremented. -/
theorem deleteByState_returns {α : Type} [LinearOrder α] (t : BinaryTree α) (k : α)
    (fuel : Nat) (st1 : SearchState) (c : Nat) (l0 r0 : Tree α)
    (hcur : st1.currentVertex = some c)
    (hsub : Represents t.heap (some c) (.node l0 k r0))
    (hheight : (Tree.node l0 k r0).height ≤ fuel)
    (hpar : some c = t.root ∨ ∃ p wp, st1.previousVertex = some p ∧ t.heap p = some wp ∧
      wp.value ∉ (Tree.node l0 k r0).toList) :
    ∃ t1, deleteByState fuel { t with searchState := st1 } k = .ok t1 ∧
      t1.treeSize = sizeDecr t.treeSize := by
  obtain ⟨a, pl, pr, hca, ha, hpl, hpr⟩ := hsub
  cases hca
  have hkin : k ∈ (Tree.node l0 k r0).toList :=
    (Tree.mem_node k k l0 r0).mpr (Or.inr (Or.inl rfl))
  have hflag : ∀ (heapF : Heap α),
      (∀ p wp, t.heap p = some wp → wp.value ∉ (Tree.node l0 k r0).toList →
        ∃ w, heapF p = some w) →
      decide (some c = t.root) = true ∨
        ∃ p w, st1.previousVertex = some p ∧ heapF p = some w := by
    intro heapF hlive
    rcases hpar with h | ⟨p, wp, hp, hwp, hnin⟩
    · exact Or.inl (by simp [h])
    · obtain ⟨w, hw⟩ := hlive p wp hwp hnin
      exact Or.inr ⟨p, w, hp, hw⟩
  cases l0 with
  | nil =>
    have hpl1 : pl = none := hpl
    subst hpl1
    cases r0 with
    | nil =>
      have hpr1 : pr = none := hpr
      subst hpr1
      rw [deleteByState_leaf fuel { t with searchState := st1 } k c _ hcur ha rfl rfl]
      exact deleteFinish_ok _ _ (hflag _ (fun p wp hwp hnin =>
        ⟨wp, free_frame t.heap c p _ wp ha hwp (fun h => hnin (by rw [h]; exact hkin))⟩))
    | node rl rv rr =>
      obtain ⟨d, prl, prr, hpd, hd, _, _⟩ := hpr
      subst hpd
      have hrvin : rv ∈ (Tree.node Tree.nil k (Tree.node rl rv rr)).toList :=
        (Tree.mem_node rv k _ _).mpr
          (Or.inr (Or.inr ((Tree.mem_node rv rv rl rr).mpr (Or.inr (Or.inl rfl)))))
      have hbranch := deleteByState_right fuel { t with searchState := st1 } k c d _
        hcur ha rfl rfl
      simp only [hd] at hbranch
      rw [hbranch]
      exact deleteFinish_ok _ _ (hflag _ (fun p wp hwp hnin =>
        ⟨wp, free_store_frame t.heap c d p _ _ _ wp ha hd hwp
          (fun h => hnin (by rw [h]; exact hkin)) (fun h => hnin (by rw [h]; exact hrvin))⟩))
  | node ll lv lr =>
    obtain ⟨dl, pll, plr, hpdl, hdl, _, _⟩ := hpl
    subst hpdl
    have hlvin : lv ∈ (Tree.node (Tree.node ll lv lr) k r0).toList :=
      (Tree.mem_node lv k _ _).mpr
        (Or.inl ((Tree.mem_node lv lv ll lr).mpr (Or.inr (Or.inl rfl))))
    cases r0 with
    | nil =>
      have hpr1 : pr = none := hpr
      subst hpr1
      have hbranch := deleteByState_left fuel { t with searchState := st1 } k c dl _
        hcur ha rfl rfl
      simp only [hdl] at hbranch
      rw [hbranch]
      exact deleteFinish_ok _ _ (hflag _ (fun p wp hwp hnin =>
        ⟨wp, free_store_frame t.heap c dl p _ _ _ wp ha hdl hwp
          (fun h => hnin (by rw [h]; exact hkin)) (fun h => hnin (by rw [h]; exact hlvin))⟩))
    | node rl rv rr =>
      have hrep0 := hpr
      obtain ⟨dr, prl, prr, hpdr, hdr, _, _⟩ := hpr
      subst hpdr
      have hrh : (Tree.node rl rv rr).height ≤ fuel + 1 := by
        simp only [Tree.height] at hheight ⊢
        have := le_max_right ((Tree.node ll lv lr).height) (max rl.height rr.height + 1)
        simp only [Tree.height] at this
        omega
      obtain ⟨ds, s, ws, q, wq, hloop, hs, hws, hwsin, hq, hwq⟩ :=
        leftmostLoop_layout t.heap (Tree.node rl rv rr) fuel
          ⟨some c, some dr, Direction.RIGHT⟩ c _ (by simp) hrep0 hrh rfl ha
      obtain ⟨y, hy⟩ := replaceLink_ok t.heap ds ws.rightEdge q wq hq hwq
      obtain ⟨w1, hw1⟩ := live_store t.heap q s y ⟨ws, hws⟩
      obtain ⟨c1, hc1⟩ := live_store t.heap q c y ⟨_, ha⟩
      rw [deleteByState_two fuel { t with searchState := st1 } k c dl dr _ hcur ha rfl rfl]
      simp only [hloop, hs, deref, hws, hy, hw1, hc1, bind, Except.bind, deletePtr]
      refine deleteFinish_ok _ _ (hflag _ (fun p wp hwp hnin => ?_))
      have hps : p ≠ s := by
        intro h
        rw [h, hws] at hwp
        cases hwp
        exact hnin ((Tree.mem_node _ k _ _).mpr (Or.inr (Or.inr hwsin)))
      exact live_free _ s p hps (live_store _ c p _ (live_store t.heap q p y ⟨wp, hwp⟩))

/-- C16: on every search-tree layout whose size counter is at least one, with a
step budget of at least the height, `findByValue k` and `deleteByValue k` return;
the size is exactly one less when the search had returned `true`, whichever of the
four branches of `deleteByState` runs, and the same when it had returned `false`. -/
theorem remove_size_change {α : Type} [LinearOrder α] (t : BinaryTree α) (tr : Tree α)
    (k : α) (fuel : Nat) (hrep : Represents t.heap t.root tr) (hbst : tr.BST)
    (hfuel : tr.height ≤ fuel) (hpos : 1 ≤ getSize t) (hlt : getSize t < sizeModulus) :
    ∃ b t0 t1, findByValue fuel t k = .ok (b, t0) ∧ deleteByValue fuel t k = .ok t1 ∧
      (b = true ↔ k ∈ tr.toList) ∧
      (b = true → getSize t1 + 1 = getSize t) ∧ (b = false → getSize t1 = getSize t) := by
  by_cases hmem : k ∈ tr.toList
  · obtain ⟨st1, c, hfind, hcur, _, hsub, hpar, _⟩ :=
      findByValue_found t tr k fuel hrep hbst hfuel hmem
    obtain ⟨l0, r0, hsubeq⟩ := Tree.subtreeAt_of_mem k tr hbst hmem
    have hh : (Tree.node l0 k r0).height ≤ fuel := by
      rw [← hsubeq]
      exact le_trans (Tree.subtreeAt_height k tr) hfuel
    rw [hsubeq] at hsub hpar
    obtain ⟨t1, hdel, hsize⟩ := deleteByState_returns t k fuel st1 c l0 r0 hcur hsub hh (by
      rcases hpar with h | ⟨p, wp, hp, hwp, _, _, _, hnin⟩
      · exact Or.inl h
      · exact Or.inr ⟨p, wp, hp, hwp, hnin⟩)
    refine ⟨true, _, t1, hfind, by simp [deleteByValue, hfind, hdel], by simp [hmem],
      fun _ => ?_, fun h => absurd h (by simp)⟩
    simp only [getSize] at hpos hlt ⊢
    rw [hsize, sizeDecr_of_pos _ hpos hlt]
    omega
  · obtain ⟨st1, hloop⟩ := findLoop_correct t.heap k tr fuel
      (t.searchState.reset none t.root) hrep hbst hfuel
    have hfind : findByValue fuel t k = .ok (false, { t with searchState := st1 }) := by
      simp [findByValue, hloop, hmem]
    exact ⟨false, _, { t with searchState := st1 }, hfind, by simp [deleteByValue, hfind],
      by simp [hmem],
      fun h => absurd h (by simp), fun _ => rfl⟩

/-- Witness of C16: deleting `5`, the root with two children, from the three-node
tree. -/
theorem remove_size_change_witness :
    Represents threeNodes.heap threeNodes.root threeTree ∧ threeTree.BST ∧
      threeTree.height ≤ 2 ∧ 1 ≤ getSize threeNodes ∧ getSize threeNodes < sizeModulus ∧
      ∃ b t0 t1, findByValue 2 threeNodes 5 = .ok (b, t0) ∧
        deleteByValue 2 threeNodes 5 = .ok t1 ∧ (b = true ↔ 5 ∈ threeTree.toList) ∧
        (b = true → getSize t1 + 1 = getSize threeNodes) ∧
        (b = false → getSize t1 = getSize threeNodes) :=
  ⟨⟨0, some 1, some 2, rfl, rfl, ⟨1, none, none, rfl, rfl, rfl, rfl⟩,
      ⟨2, none, none, rfl, rfl, rfl, rfl⟩⟩,
    by simp [threeTree, Tree.BST, Tree.toList], by decide, by decide, by decide,
    remove_size_change threeNodes threeTree 5 2
      ⟨0, some 1, some 2, rfl, rfl, ⟨1, none, none, rfl, rfl, rfl, rfl⟩,
        ⟨2, none, none, rfl, rfl, rfl, rfl⟩⟩
      (by simp [threeTree, Tree.BST, Tree.toList]) (by decide) (by decide) (by decide)⟩

/-! ## The size counter after `2 ^ 64` increments -/

end BinaryTree
